import Mathlib

/-!
Verification development for the Censei reconnaissance crawler.

Each Go component relevant to the checked properties is shallowly embedded
as an executable Lean definition:

* `Censei.Filter`        — `filter.Filter` (extension filtering)
* `Censei.Scanners`      — `scanners.DirectoryScanner` (listing detection,
                           link classification, recursive walk)
* `Censei.Output`        — `output.Writer` binary-findings collection and
                           sorted emission
* `Censei.Blocklist`     — `filter.Blocklist` load/save and host addition
* `Censei.FileChecker`   — `filechecker.FileChecker.CheckSpecificFile`
* `Censei.Worker`        — `crawler.Worker` per-host pipeline and skip
                           callback

HTTP transport, the HTML parser and `net/url` parsing are external
libraries; they enter the embedding as oracle parameters (a fetch function,
a parsed-anchor view of a body, a URL-parsing function), while all decision
logic of the repository itself is translated literally from the source.
-/

namespace Censei

/-! ### Shared string helpers (embeddings of Go `strings` operations) -/

/-- Decides whether `p` starts the list `l`. -/
def startsList : List Char → List Char → Bool
  | [], _ => true
  | _ :: _, [] => false
  | a :: as, b :: bs => a = b && startsList as bs

/-- Decides whether `needle` occurs as a contiguous run inside `hay`. -/
def subList (needle hay : List Char) : Bool :=
  match hay with
  | [] => needle.isEmpty
  | _ :: rest => startsList needle hay || subList needle rest

/-- Embedding of Go `strings.Contains`: substring containment. -/
def strContains (hay needle : String) : Bool :=
  subList needle.toList hay.toList

/-- Embedding of Go `strings.ToLower` restricted to the ASCII range the
source relies on. -/
def strToLower (s : String) : String :=
  String.mk (s.toList.map Char.toLower)

/-- Embedding of Go `strings.HasPrefix`. -/
def strStartsWith (s pre : String) : Bool :=
  startsList pre.toList s.toList

/-- Embedding of Go `strings.HasSuffix`. -/
def strEndsWith (s suf : String) : Bool :=
  startsList suf.toList.reverse s.toList.reverse

/-- Embedding of Go `strings.TrimSuffix s "/"`: drops one trailing slash
if present. -/
def trimSuffixSlash (s : String) : String :=
  if strEndsWith s "/" then String.mk s.toList.dropLast else s

/-- Embedding of Go `strings.HasSuffix s "/"`. -/
def endsWithSlash (s : String) : Bool :=
  strEndsWith s "/"

/-- Embedding of Go `strings.TrimSpace`. -/
def trimString (s : String) : String :=
  String.mk (((s.toList.dropWhile Char.isWhitespace).reverse.dropWhile
    Char.isWhitespace).reverse)

/-- Splitting pass of `strings.Split` for a nonempty separator, with a
fuel argument (any fuel at least the input length is exact); `cur` holds
the current chunk reversed. -/
def splitFuel (sep : List Char) : Nat → List Char → List Char → List (List Char)
  | 0, l, cur => [cur.reverse ++ l]
  | _ + 1, [], cur => [cur.reverse]
  | fuel + 1, c :: rest, cur =>
    if startsList sep (c :: rest) then
      cur.reverse :: splitFuel sep fuel ((c :: rest).drop sep.length) []
    else splitFuel sep fuel rest (c :: cur)

/-- Embedding of Go `strings.Split s sep` for a nonempty separator. -/
def splitOnSep (s sep : String) : List String :=
  (splitFuel sep.toList (s.toList.length + 1) s.toList []).map String.mk

end Censei

namespace Censei.Filter

/-!
Embedding of `filter.Filter` (`NewFilter` / `ShouldFilter`), the map-based
revision.  The extension map is represented as the list of normalized
extensions; Go map membership is list membership (`elem`), duplicates in
the list are harmless exactly as repeated map inserts are.
-/

/-- `NewFilter` normalization of one configured extension: ensure a leading
dot, then lowercase. -/
def normalizeExt (ext : String) : String :=
  let ext := if Censei.strStartsWith ext "." then ext else "." ++ ext
  Censei.strToLower ext

/-- The key set of `Filter.extensionMap` as built by `NewFilter`. -/
def extensionMap (extensions : List String) : List String :=
  extensions.map normalizeExt

/-- Embedding of Go `path/filepath.Ext` (on a system whose path separator
is `/`): the suffix beginning at the final dot in the final
slash-separated element; empty if there is no dot there. -/
def filepathExt (path : String) : String :=
  go path.toList.reverse []
where
  /-- Scans the path from its last character toward the front, stopping at
  a path separator; `acc` holds the characters already passed, in their
  original order. -/
  go : List Char → List Char → String
    | [], _ => ""
    | c :: rest, acc =>
      if c = '/' then ""
      else if c = '.' then String.mk ('.' :: acc)
      else go rest (c :: acc)

/-- Embedding of `Filter.ShouldFilter`. -/
def shouldFilter (extensions : List String) (fileURL : String) : Bool :=
  if (extensionMap extensions).isEmpty then false
  else
    let ext := Censei.strToLower (filepathExt fileURL)
    (extensionMap extensions).elem ext

end Censei.Filter

namespace Censei.Scanners

/-!
Embedding of `scanners.DirectoryScanner`.  The HTML parser (goquery) is an
external library: a fetched body is therefore modelled as the raw text
together with the parser's view of it — `none` when parsing fails,
`some anchors` otherwise, where each anchor carries its optional `href`
attribute in document order.
-/

/-- One `<a>` element as seen by `doc.Find("a")`: the `href` attribute is
`none` when absent. -/
structure Anchor where
  href : Option String
deriving DecidableEq, Repr

/-- An HTML body: the raw text plus the parser's anchor view. -/
structure Body where
  text : String
  anchors : Option (List Anchor)
deriving DecidableEq, Repr

/-- The navigation hrefs dropped by both the listing heuristic and link
extraction: `../`, `..`, `.`, `/`. -/
def isNavHref (href : String) : Bool :=
  href = "../" || href = ".." || href = "." || href = "/"

/-- The directory-listing indicator substrings of `IsDirectoryListing`. -/
def directoryIndicators : List String :=
  ["index of", "directory listing", "parent directory",
   "<title>index of", "apache/", "nginx/"]

/-- Counts anchors whose `href` is present and is not a navigation href,
as in the anchor-count heuristic of `IsDirectoryListing`. -/
def anchorCount (anchors : List Anchor) : Nat :=
  anchors.countP fun a =>
    match a.href with
    | some h => !(isNavHref h)
    | none => false

/-- Embedding of `DirectoryScanner.IsDirectoryListing`. -/
def IsDirectoryListing (b : Body) : Bool :=
  let content := Censei.strToLower b.text
  if directoryIndicators.any (fun ind => Censei.strContains content ind) then
    true
  else
    match b.anchors with
    | none => false
    | some anchors => decide (anchorCount anchors > 5)

/-- Embedding of `DirectoryScanner.isDirectory`: a URL is directory-typed
iff it ends in `/`, or its final path segment is nonempty and contains no
dot. -/
def isDirectory (url : String) : Bool :=
  if Censei.endsWithSlash url then true
  else
    let lastPart := lastSegment url.toList []
    if !lastPart.contains '.' && !lastPart.isEmpty then true else false
where
  /-- `url[strings.LastIndex(url, "/")+1:]` as a character list. -/
  lastSegment : List Char → List Char → List Char
    | [], acc => acc
    | c :: rest, acc =>
      if c = '/' then lastSegment rest []
      else lastSegment rest (acc ++ [c])

end Censei.Scanners

namespace Censei.Scanners

/-!
Embedding of the recursive walk (`ScanHostRecursive` / `scanRecursive`).

Budget fields of the global configuration are modelled as `Nat`; the
source guards every cap with `> 0`, so non-positive values uniformly mean
"disabled" and are all represented by `0`.  The fetch client and the
link extractor (goquery plus `net/url` resolution) are oracle parameters:
`fetch` returns `none` when `CheckHostAndFetch` reports an error or an
offline host, and `extract` is `extractLinks` (base URL, body ↦ resolved
hrefs in document order).
-/

/-- The budget-relevant fields of `config.Config`. -/
structure GlobalConfig where
  maxLinksPerDirectory : Nat
  maxTotalLinks : Nat
  maxSkipsBeforeBlock : Nat
  enableBlocklist : Bool
deriving DecidableEq, Repr

/-- The mutable state threaded through `scanRecursive`: the `visited` set,
the accumulated `allLinks` slice, the atomic `totalLinksCount`, plus two
observation traces — the URLs passed to `skipCallback` and the
`(url, body)` pairs of every node whose links were extracted. -/
structure WalkSt where
  visited : List String
  links : List String
  total : Nat
  skips : List String
  trace : List (String × Body)
deriving DecidableEq, Repr

/-- The fresh state installed by `ScanHostRecursive` before walking. -/
def initWalkSt : WalkSt :=
  { visited := [], links := [], total := 0, skips := [], trace := [] }

/-- Links of one node after the per-directory cap of step 4 of the
algorithm (`links = links[:cfg.MaxLinksPerDirectory]`). -/
def nodeLinks (cfg : GlobalConfig) (extract : String → Body → List String)
    (url : String) (b : Body) : List String :=
  let links := extract url b
  if cfg.maxLinksPerDirectory > 0 && links.length > cfg.maxLinksPerDirectory then
    links.take cfg.maxLinksPerDirectory
  else links

/-- The file-typed links of one node. -/
def nodeFiles (cfg : GlobalConfig) (extract : String → Body → List String)
    (url : String) (b : Body) : List String :=
  (nodeLinks cfg extract url b).filter (fun l => !isDirectory l)

/-- The directory-typed links of one node. -/
def nodeDirs (cfg : GlobalConfig) (extract : String → Body → List String)
    (url : String) (b : Body) : List String :=
  (nodeLinks cfg extract url b).filter (fun l => isDirectory l)

/-- Embedding of `DirectoryScanner.scanRecursive`.  `gas` is the
structural-recursion measure `maxDepth - depth`: when it is `0` the depth
guard `currentDepth >= maxDepth` holds, so only the budget check can act
and the node is otherwise left alone, exactly as in the source; when it
is positive the full node body runs. -/
def scanAux (cfg : GlobalConfig) (fetch : String → Option Body)
    (extract : String → Body → List String) (maxDepth : Nat) :
    Nat → String → Body → Nat → WalkSt → WalkSt
  | 0, url, _content, _depth, st =>
    if cfg.maxTotalLinks > 0 && st.total > cfg.maxTotalLinks then
      { st with skips := st.skips ++ [url] }
    else st
  | gas + 1, url, content, depth, st =>
    if cfg.maxTotalLinks > 0 && st.total > cfg.maxTotalLinks then
      { st with skips := st.skips ++ [url] }
    else if st.visited.contains url || depth ≥ maxDepth then st
    else
      let st1 : WalkSt :=
        { st with visited := url :: st.visited,
                  trace := st.trace ++ [(url, content)] }
      let files := nodeFiles cfg extract url content
      let dirs := nodeDirs cfg extract url content
      let st2 : WalkSt :=
        { st1 with links := st1.links ++ files,
                   total := st1.total + files.length }
      if depth + 1 < maxDepth then
        dirs.foldl (fun acc d =>
          match fetch d with
          | none => acc
          | some b =>
            if IsDirectoryListing b then
              scanAux cfg fetch extract maxDepth gas d b (depth + 1) acc
            else acc) st2
      else st2

/-- `scanRecursive` proper: the recursion depth budget `maxDepth - depth`
instantiates the gas. -/
def scanRecursive (cfg : GlobalConfig) (fetch : String → Option Body)
    (extract : String → Body → List String) (maxDepth : Nat)
    (url : String) (content : Body) (depth : Nat) (st : WalkSt) : WalkSt :=
  scanAux cfg fetch extract maxDepth (maxDepth - depth) url content depth st

/-- Embedding of `DirectoryScanner.ScanHost`: non-recursive extraction of
all links of the root body. -/
def ScanHost (extract : String → Body → List String)
    (url : String) (content : Body) : List String :=
  extract url content

/-- Embedding of `DirectoryScanner.ScanHostRecursive`: for a non-positive
depth it degrades to `ScanHost`; otherwise it resets the counter and the
visited set and walks from depth `0`. -/
def ScanHostRecursive (cfg : GlobalConfig) (fetch : String → Option Body)
    (extract : String → Body → List String)
    (url : String) (content : Body) (maxDepth : Nat) : WalkSt :=
  if maxDepth = 0 then
    { initWalkSt with links := ScanHost extract url content }
  else
    scanRecursive cfg fetch extract maxDepth url content 0 initWalkSt

end Censei.Scanners

namespace Censei.Output

/-!
Embedding of `output.Writer`'s binary stream (`WriteBinaryOutput`,
`writeSortedBinaryFindings`).  The Go map `binaryFindings` is modelled as
an association list updated with map semantics; since the emission at
close sorts the keys, the representation order is immaterial.  `net/url`
parsing is an oracle `parseURL` returning the `(Scheme, Host)` pair, or
`none` when `url.Parse` fails.
-/

/-- One entry of `binaryFindings`: a found URL with its content type. -/
structure BinaryFinding where
  url : String
  contentType : String
deriving DecidableEq, Repr

/-- The writer state relevant to the binary stream. -/
structure WriterSt where
  binaryFindings : List (String × List BinaryFinding)
deriving DecidableEq, Repr

/-- The freshly constructed writer: an empty findings map. -/
def emptyWriter : WriterSt := { binaryFindings := [] }

/-- Go map read `w.binaryFindings[host]`: the bound list, or `nil` when
the key is absent. -/
def lookupGroup (gs : List (String × List BinaryFinding)) (key : String) :
    List BinaryFinding :=
  match gs with
  | [] => []
  | (k, fs) :: rest => if k = key then fs else lookupGroup rest key

/-- Go map write `w.binaryFindings[host] = fs`: replace the binding if the
key is present, otherwise add it. -/
def updateGroup (gs : List (String × List BinaryFinding)) (key : String)
    (fs : List BinaryFinding) : List (String × List BinaryFinding) :=
  match gs with
  | [] => [(key, fs)]
  | (k, old) :: rest =>
    if k = key then (k, fs) :: rest else (k, old) :: updateGroup rest key fs

/-- The separator `WriteBinaryOutput` splits incoming lines on. -/
def ctSep : String := " with Content-Type: "

/-- The group key `scheme://host` derived from a parsed URL. -/
def groupKey (parsed : String × String) : String :=
  parsed.1 ++ "://" ++ parsed.2

/-- Embedding of `Writer.WriteBinaryOutput`. -/
def WriteBinaryOutput (parseURL : String → Option (String × String))
    (st : WriterSt) (line : String) : Except String WriterSt :=
  match Censei.splitOnSep line ctSep with
  | [p0, p1] =>
    let fileURL := Censei.trimString p0
    let _contentType := Censei.trimString p1
    match parseURL fileURL with
    | none => .error "failed to parse URL"
    | some parsed =>
      let host := groupKey parsed
      let existing := lookupGroup st.binaryFindings host
      if existing.any (fun f => f.url = fileURL) then
        .ok st
      else
        .ok { binaryFindings :=
                updateGroup st.binaryFindings host
                  (existing ++
                    [{ url := fileURL,
                       contentType := Censei.trimString p1 }]) }
  | _ => .error "invalid binary output format"

/-- One worker-side call: the write error is logged and counted but the
pipeline continues, so a failing line leaves the state unchanged. -/
def applyBinaryLine (parseURL : String → Option (String × String))
    (st : WriterSt) (line : String) : WriterSt :=
  match WriteBinaryOutput parseURL st line with
  | .ok st1 => st1
  | .error _ => st

/-- The writer state after an arbitrary run of `WriteBinaryOutput` calls
(in the serialization order enforced by the writer mutex). -/
def runBinaryWrites (parseURL : String → Option (String × String))
    (lines : List String) : WriterSt :=
  lines.foldl (applyBinaryLine parseURL) emptyWriter

/-- `sort.Strings(hosts)` over the map keys. -/
def sortedHosts (st : WriterSt) : List String :=
  (st.binaryFindings.map Prod.fst).insertionSort (· ≤ ·)

/-- Embedding of `writeSortedBinaryFindings` at the group level: the
sections of `binary_found.txt` in emission order, each a group header key
with its URL lines (empty groups are skipped, insertion order within a
group is preserved). -/
def renderedGroups (st : WriterSt) : List (String × List String) :=
  (sortedHosts st).filterMap fun host =>
    let findings := lookupGroup st.binaryFindings host
    if findings.isEmpty then none
    else some (host, findings.map (fun f => f.url))

/-- All URL lines of `binary_found.txt`, headers excluded. -/
def renderedUrls (st : WriterSt) : List String :=
  ((renderedGroups st).map Prod.snd).flatten

end Censei.Output

namespace Censei.Blocklist

/-!
Embedding of `filter.Blocklist` (`Load`, `Save`, `AddHost`).  The file is a
list of lines, each a list of characters; timestamps are abstract instants
(`Nat`), with `time.Parse(RFC3339)` and `Format(RFC3339)` as oracles
`parseTs` / `fmtTs` and `time.Now()` frozen to a parameter `now`.  The
host map is an association list with Go map insert semantics.
-/

/-- Go `unicode.IsSpace` on the characters relevant here. -/
def isSpace (c : Char) : Bool := c.isWhitespace

/-- Drops the trailing whitespace run of a character list. -/
def dropEndSpaces (l : List Char) : List Char :=
  (l.reverse.dropWhile isSpace).reverse

/-- Embedding of Go `strings.TrimSpace` on a character list. -/
def trimChars (l : List Char) : List Char :=
  dropEndSpaces (l.dropWhile isSpace)

/-- Accumulator pass of `fields`: splits at whitespace runs, dropping
empty chunks; `cur` holds the current chunk reversed. -/
def fieldsAux : List Char → List Char → List (List Char)
  | [], cur => if cur.isEmpty then [] else [cur.reverse]
  | c :: rest, cur =>
    if isSpace c then
      if cur.isEmpty then fieldsAux rest []
      else cur.reverse :: fieldsAux rest []
    else fieldsAux rest (c :: cur)

/-- Embedding of Go `strings.Fields`. -/
def fieldsOf (l : List Char) : List (List Char) := fieldsAux l []

/-- Go map insert `b.hosts[hostname] = timestamp`. -/
def mapInsert (m : List (String × Nat)) (k : String) (v : Nat) :
    List (String × Nat) :=
  match m with
  | [] => [(k, v)]
  | (k0, v0) :: rest =>
    if k0 = k then (k0, v) :: rest else (k0, v0) :: mapInsert rest k v

/-- Association-list lookup mirroring a Go map read. -/
def lookupTs (m : List (String × Nat)) (k : String) : Option Nat :=
  match m with
  | [] => none
  | (k0, v0) :: rest => if k0 = k then some v0 else lookupTs rest k

/-- One iteration of the `Load` scan loop: skip blank and `#`-comment
lines, take the first field as hostname, parse the second field as the
timestamp falling back to the current time. -/
def loadLine (parseTs : List Char → Option Nat) (now : Nat)
    (m : List (String × Nat)) (rawLine : List Char) : List (String × Nat) :=
  let line := trimChars rawLine
  match line with
  | [] => m
  | c :: _ =>
    if c = '#' then m
    else
      match fieldsOf line with
      | [] => m
      | hostname :: rest =>
        let ts :=
          match rest with
          | tsField :: _ =>
            match parseTs tsField with
            | some t => t
            | none => now
          | [] => now
        mapInsert m (String.mk hostname) ts

/-- Embedding of `Blocklist.Load` over the file's lines (the enabled
path; a disabled blocklist skips loading and stays empty). -/
def Load (parseTs : List Char → Option Nat) (now : Nat)
    (lines : List (List Char)) : List (String × Nat) :=
  lines.foldl (loadLine parseTs now) []

/-- The header `Save` writes before the data lines (three comments and the
blank line produced by the trailing double newline). -/
def saveHeader (fmtTs : Nat → List Char) (now : Nat) : List (List Char) :=
  ["# Censei Blocklist - Generated on ".toList ++ fmtTs now,
   "# Format: hostname timestamp".toList,
   "# Hosts that exceeded skip limits and are permanently blocked".toList,
   []]

/-- Embedding of `Blocklist.Save` as the lines of the produced file (the
enabled path; a disabled blocklist writes nothing). -/
def Save (fmtTs : Nat → List Char) (now : Nat) (m : List (String × Nat)) :
    List (List Char) :=
  saveHeader fmtTs now ++
    m.map (fun e => e.1.toList ++ ' ' :: fmtTs e.2)

/-- Embedding of `Blocklist.AddHost`: on an enabled blocklist, insert the
hostname with the current time only when absent (the save-channel signal
has no effect on the map). -/
def AddHost (enabled : Bool) (now : Nat) (m : List (String × Nat))
    (hostname : String) : List (String × Nat) :=
  if !enabled then m
  else if (lookupTs m hostname).isSome then m
  else m ++ [(hostname, now)]

/-- The data lines of a blocklist file with the hostname each one loads:
exactly the lines `Load` does not skip, keyed by their first field. -/
def dataHostnames (lines : List (List Char)) : List String :=
  lines.filterMap fun rawLine =>
    match trimChars rawLine with
    | [] => none
    | c :: rest =>
      if c = '#' then none
      else ((fieldsOf (c :: rest)).head?).map String.mk

end Censei.Blocklist

namespace Censei.FileChecker

/-!
Embedding of `filechecker.FileChecker.CheckSpecificFile` and
`ShouldCheck`.  The HTTP layer is an oracle: `reqFail url` is true when
`http.NewRequest` rejects the URL (no request is issued then), and
`http url` is the transport answer — `none` for a transport error,
otherwise the status and `Content-Type` header.  The result records, in
`requests`, every URL for which a request was executed.  The partial body
read (up to 512 bytes) influences neither the return values nor the
request set and has no counterpart here.
-/

/-- The HTTP response data `CheckSpecificFile` consumes. -/
structure HttpResp where
  status : Nat
  contentType : String
deriving DecidableEq, Repr

/-- The binary content-type substrings of the checker. -/
def binaryContentTypes : List String :=
  ["application/octet-stream", "application/x-executable",
   "application/x-msdos-program", "application/x-msdownload",
   "application/exe", "application/binary"]

/-- The `(found, contentType, err)` triple together with the trace of
issued requests. -/
structure CheckResult where
  found : Bool
  contentType : String
  isErr : Bool
  requests : List String
deriving DecidableEq, Repr

/-- Embedding of `CheckSpecificFile`. -/
def CheckSpecificFile (checkEnabled : Bool) (reqFail : String → Bool)
    (http : String → Option HttpResp) (baseURL fileName : String) :
    CheckResult :=
  if !checkEnabled then
    { found := false, contentType := "", isErr := true, requests := [] }
  else
    let base := Censei.trimSuffixSlash baseURL
    let fileURL := base ++ "/" ++ fileName
    if reqFail fileURL then
      { found := false, contentType := "", isErr := true, requests := [] }
    else
      match http fileURL with
      | none =>
        { found := false, contentType := "", isErr := true,
          requests := [fileURL] }
      | some resp =>
        if resp.status ≠ 200 then
          { found := false, contentType := "", isErr := true,
            requests := [fileURL] }
        else
          let ct := resp.contentType
          if binaryContentTypes.any (fun b => Censei.strContains ct b) then
            { found := true, contentType := ct, isErr := false,
              requests := [fileURL] }
          else
            { found := false, contentType := ct, isErr := true,
              requests := [fileURL] }

/-- Embedding of Go `path/filepath.Base`. -/
def filepathBase (p : String) : String :=
  if p = "" then "."
  else
    let cs := dropTrailing p.toList.reverse
    if cs.isEmpty then "/"
    else String.mk (untilSlash cs []).reverse
where
  /-- Drops trailing `/` characters (the input is reversed). -/
  dropTrailing (l : List Char) : List Char := l.dropWhile (· = '/')
  /-- Collects the reversed final element up to the next separator. -/
  untilSlash : List Char → List Char → List Char
    | [], acc => acc
    | c :: rest, acc => if c = '/' then acc else untilSlash rest (acc ++ [c])

/-- Embedding of `FileChecker.ShouldCheck`. -/
def ShouldCheck (checkEnabled : Bool) (targetFileName fileURL : String) :
    Bool :=
  if !checkEnabled then false
  else if targetFileName ≠ "" then filepathBase fileURL = targetFileName
  else true

end Censei.FileChecker

namespace Censei.Worker

open Censei.Scanners Censei.Output Censei.FileChecker

/-!
Embedding of `crawler.Worker` — the per-host pipeline (`processHost`,
`processDirectoryContent`, `processFoundFile`, `checkFileContent`) and the
skip-event handling of `skipCallback`.  `extractBaseHost` rests on
`net/url` and is an oracle parameter.  A host run is modelled as a pure
function from the pre-state (suppression sets, oracles) to the host's
observable effects: statistic deltas, the lines written to each stream,
and the probe and scanner invocations.  Since the walker neither reads
the suppression state nor is influenced by `skipCallback`'s writes, the
skip events it reports are applied to the suppression state after the
walk without changing any observable.
-/

/-- The per-query options consumed by the pipeline. -/
structure QueryConfig where
  filters : List String
  recursive : String
  maxDepth : Nat
deriving DecidableEq, Repr

/-- Observable effects of processing one host. -/
structure HostResult where
  onlineDelta : Nat
  totalFilesDelta : Nat
  filteredDelta : Nat
  checkedDelta : Nat
  binaryFoundDelta : Nat
  rawLines : List String
  filteredLines : List String
  binaryLines : List String
  specificChecks : List (String × String)
  fileChecks : List String
  recursiveScans : List String
  plainScans : List String
  skipEvents : List String
deriving DecidableEq, Repr

/-- The empty effect record. -/
def noEffects : HostResult :=
  { onlineDelta := 0, totalFilesDelta := 0, filteredDelta := 0,
    checkedDelta := 0, binaryFoundDelta := 0, rawLines := [],
    filteredLines := [], binaryLines := [], specificChecks := [],
    fileChecks := [], recursiveScans := [], plainScans := [],
    skipEvents := [] }

/-- All oracle dependencies of one worker. -/
structure Oracles where
  extractBase : String → String
  fetch : String → Option Body
  extract : String → Body → List String
  reqFail : String → Bool
  http : String → Option HttpResp
  probeFile : String → Option String
deriving Inhabited

/-- Embedding of `checkFileContent`: bump `checkedFiles`, probe the URL
(`probeFile` returns the content type exactly when `CheckFileURL` reports
a binary hit without error), and emit the two lines on a hit. -/
def checkFileContent (os : Oracles) (r : HostResult) (fileURL : String) :
    HostResult :=
  let r := { r with checkedDelta := r.checkedDelta + 1,
                    fileChecks := r.fileChecks ++ [fileURL] }
  match os.probeFile fileURL with
  | some ct =>
    { r with
      rawLines := r.rawLines ++
        ["Found binary file: " ++ fileURL ++ ctSep ++ ct],
      binaryLines := r.binaryLines ++ [fileURL ++ ctSep ++ ct],
      binaryFoundDelta := r.binaryFoundDelta + 1 }
  | none => r

/-- Embedding of `processFoundFile`: host-local dedup, stats, raw output,
filter application and the optional content check. -/
def processFoundFile (os : Oracles) (checkEnabled hasChecker : Bool)
    (targetFileName : String) (filters : List String)
    (acc : HostResult × List String) (fileURL : String) :
    HostResult × List String :=
  let (r, foundUrls) := acc
  if foundUrls.contains fileURL then (r, foundUrls)
  else
    let foundUrls := foundUrls ++ [fileURL]
    let r := { r with totalFilesDelta := r.totalFilesDelta + 1,
                      rawLines := r.rawLines ++ ["Found file: " ++ fileURL] }
    if Censei.Filter.shouldFilter filters fileURL then
      let r := { r with filteredDelta := r.filteredDelta + 1,
                        filteredLines := r.filteredLines ++ [fileURL] }
      if checkEnabled && hasChecker &&
          ShouldCheck checkEnabled targetFileName fileURL then
        (checkFileContent os r fileURL, foundUrls)
      else (r, foundUrls)
    else (r, foundUrls)

/-- Embedding of `processDirectoryContent` for one host whose fetched body
is `body`, starting from the effects `r` already accumulated. -/
def processDirectoryContent (cfg : GlobalConfig) (qc : QueryConfig)
    (os : Oracles) (checkEnabled hasChecker : Bool) (targetFileName : String)
    (persistBlocked : String → Bool) (blockedHosts : List String)
    (hostURL : String) (body : Body) (r : HostResult) : HostResult :=
  let baseHost := os.extractBase hostURL
  if persistBlocked baseHost then r
  else if blockedHosts.contains baseHost then r
  else if !IsDirectoryListing body then r
  else
    let recursive := qc.recursive = "yes"
    let (fileURLs, r) :=
      if recursive && qc.maxDepth > 1 then
        let w := ScanHostRecursive cfg os.fetch os.extract hostURL body
                   qc.maxDepth
        (w.links, { r with recursiveScans := r.recursiveScans ++ [hostURL],
                           skipEvents := r.skipEvents ++ w.skips })
      else
        (ScanHost os.extract hostURL body,
         { r with plainScans := r.plainScans ++ [hostURL] })
    (fileURLs.foldl
      (processFoundFile os checkEnabled hasChecker targetFileName qc.filters)
      (r, [])).1

/-- Embedding of `processHost` (pre-flight suppression, fetch, online
bookkeeping, optional targeted probe, directory processing). -/
def processHost (cfg : GlobalConfig) (qc : QueryConfig) (os : Oracles)
    (checkEnabled hasChecker : Bool) (targetFileName : String)
    (persistBlocked : String → Bool)
    (blockedHosts skippedHosts : List String) (hostURL : String) :
    HostResult :=
  let baseHost := os.extractBase hostURL
  if persistBlocked baseHost then noEffects
  else if blockedHosts.contains baseHost then noEffects
  else if skippedHosts.contains hostURL then noEffects
  else
    match os.fetch hostURL with
    | none => noEffects
    | some body =>
      let r := { noEffects with onlineDelta := 1, rawLines := [hostURL] }
      let targetedCheckMode :=
        checkEnabled && hasChecker && targetFileName ≠ ""
      let (r, foundTargetFile) :=
        if targetedCheckMode then
          let res := CheckSpecificFile checkEnabled os.reqFail os.http
                       hostURL targetFileName
          let r := { r with
                     specificChecks := r.specificChecks ++
                       [(hostURL, targetFileName)] }
          if !res.isErr && res.found then
            let binaryURL := hostURL ++ "/" ++ targetFileName
            ({ r with
               rawLines := r.rawLines ++
                 ["Found binary file: " ++ binaryURL ++ ctSep ++
                   res.contentType],
               binaryLines := r.binaryLines ++
                 [binaryURL ++ ctSep ++ res.contentType],
               checkedDelta := r.checkedDelta + 1,
               binaryFoundDelta := r.binaryFoundDelta + 1 }, true)
          else (r, false)
        else (r, false)
      if !targetedCheckMode || !foundTargetFile then
        processDirectoryContent cfg qc os checkEnabled hasChecker
          targetFileName persistBlocked blockedHosts hostURL body r
      else r

/-!
Skip-event handling (`skipCallback` closed over one host's URL, together
with `Blocklist.AddHost`).  A skip event carries the URL of the host whose
walk produced it (stored into `skippedHosts`) and the URL at which the
budget tripped (whose base hostname is counted and blocked).
-/

/-- The suppression state shared by all workers. -/
structure SuppressSt where
  skipCounters : List (String × Nat)
  blockedHosts : List String
  blocklist : List (String × Nat)
  skippedHosts : List String
deriving DecidableEq, Repr

/-- The suppression state at the start of a run with a pre-loaded
persistent blocklist `bl`. -/
def initSuppress (bl : List (String × Nat)) : SuppressSt :=
  { skipCounters := [], blockedHosts := [], blocklist := bl,
    skippedHosts := [] }

/-- Association-list read of a skip counter, `0` when absent (the
`LoadOrStore(baseHost, new(int64))` default). -/
def counterOf (m : List (String × Nat)) (k : String) : Nat :=
  match m with
  | [] => 0
  | (k0, v) :: rest => if k0 = k then v else counterOf rest k

/-- `atomic.AddInt64` on the counter map: returns the updated map and the
incremented value. -/
def bumpCounter (m : List (String × Nat)) (k : String) :
    List (String × Nat) × Nat :=
  match m with
  | [] => ([(k, 1)], 1)
  | (k0, v) :: rest =>
    if k0 = k then ((k0, v + 1) :: rest, v + 1)
    else
      let (rest1, n) := bumpCounter rest k
      ((k0, v) :: rest1, n)

/-- `sync.Map.Store` as set insertion. -/
def storeHost (s : List String) (x : String) : List String :=
  if s.contains x then s else s ++ [x]

/-- Embedding of `skipCallback` (one skip event): count the skip for the
base hostname of the tripped URL and, at the block threshold, mark the
base host blocked, add it to the persistent blocklist and record the
originating host URL as skipped. -/
def recordSkip (cfg : GlobalConfig) (extractBase : String → String)
    (now : Nat) (st : SuppressSt) (ev : String × String) : SuppressSt :=
  let baseHost := extractBase ev.2
  let counters := (bumpCounter st.skipCounters baseHost).1
  let newCount := (bumpCounter st.skipCounters baseHost).2
  let st1 := { st with skipCounters := counters }
  if cfg.maxSkipsBeforeBlock > 0 && newCount ≥ cfg.maxSkipsBeforeBlock then
    { st1 with
      blockedHosts := storeHost st1.blockedHosts baseHost,
      blocklist := Censei.Blocklist.AddHost cfg.enableBlocklist now
        st1.blocklist baseHost,
      skippedHosts := storeHost st1.skippedHosts ev.1 }
  else st1

/-- The suppression state after a serialized sequence of skip events. -/
def runSkips (cfg : GlobalConfig) (extractBase : String → String)
    (now : Nat) (events : List (String × String)) : SuppressSt :=
  events.foldl (recordSkip cfg extractBase now) (initSuppress [])

/-- The number of skip events among `events` whose tripped URL has base
hostname `b`. -/
def countBase (extractBase : String → String)
    (events : List (String × String)) (b : String) : Nat :=
  events.countP (fun ev => extractBase ev.2 = b)

end Censei.Worker

namespace Censei.Output

/-- The group key a URL is filed under, `none` when `url.Parse` fails. -/
def keyOf (parseURL : String → Option (String × String)) (u : String) :
    Option String :=
  (parseURL u).map groupKey

/-- Structural invariant of the binary-findings map: the group keys are
distinct, every group is nonempty with duplicate-free URLs, and every
stored URL parses to exactly the key of its group. -/
def WriterInv (parseURL : String → Option (String × String))
    (st : WriterSt) : Prop :=
  (st.binaryFindings.map Prod.fst).Nodup ∧
  ∀ e ∈ st.binaryFindings,
    e.2 ≠ [] ∧ (e.2.map BinaryFinding.url).Nodup ∧
    ∀ f ∈ e.2, keyOf parseURL f.url = some e.1

end Censei.Output

/-! ## Theorems -/

namespace Censei.Filter

/-- C9: `ShouldFilter` returns true exactly when the lowercased extension
of the URL's final path segment is a member of the normalized extension
set built by `NewFilter` (each configured extension prefixed with `.` when
missing and lowercased); with an empty extension list the membership fails
for every URL, so `ShouldFilter` is constantly false. -/
theorem shouldFilter_iff_mem (extensions : List String) (fileURL : String) :
    shouldFilter extensions fileURL = true ↔
      Censei.strToLower (filepathExt fileURL) ∈ extensionMap extensions := by
  unfold shouldFilter
  by_cases he : (extensionMap extensions).isEmpty
  · simp only [he, if_true]
    rw [List.isEmpty_iff] at he
    simp [he]
  · simp only [he, if_false]
    simp [List.elem_iff]

end Censei.Filter

namespace Censei.Scanners

/-- C5: `IsDirectoryListing` returns true exactly when the lowercased body
contains one of the six indicator substrings, or the parser succeeds and
the count of anchors with a present, non-navigation href strictly exceeds
5; in particular an unparseable body without indicators yields false. -/
theorem isDirectoryListing_iff (b : Body) :
    IsDirectoryListing b = true ↔
      ((directoryIndicators.any fun ind =>
          Censei.strContains (Censei.strToLower b.text) ind) = true ∨
        ∃ anchors, b.anchors = some anchors ∧ 5 < anchorCount anchors) := by
  unfold IsDirectoryListing
  by_cases hi : (directoryIndicators.any fun ind =>
      Censei.strContains (Censei.strToLower b.text) ind) = true
  · simp [hi]
  · cases h : b.anchors with
    | none => simp [hi, h]
    | some anchors => simp [hi, h]

end Censei.Scanners

namespace Censei.Worker

open Censei.Scanners Censei.Output Censei.FileChecker

/-- `processDirectoryContent` ignores the `recursive` flag entirely when
`maxDepth = 1`, because the recursive branch requires `maxDepth > 1`. -/
theorem processDirectoryContent_depth_one (cfg : GlobalConfig)
    (os : Oracles) (cE hC : Bool) (tFN : String) (pB : String → Bool)
    (bH : List String) (hostURL : String) (body : Body) (r : HostResult)
    (fs : List String) (rcv : String) :
    processDirectoryContent cfg
        { filters := fs, recursive := rcv, maxDepth := 1 }
        os cE hC tFN pB bH hostURL body r =
      processDirectoryContent cfg
        { filters := fs, recursive := "no", maxDepth := 1 }
        os cE hC tFN pB bH hostURL body r := by
  unfold processDirectoryContent
  simp

/-- C8: with `maxDepth = 1`, running the host pipeline with
`recursive = "yes"` produces exactly the same effects (file URLs, output
lines, statistics, scanner and probe invocations) as running it with
`recursive = "no"`: the recursive branch is never taken, so no descent
and no subdirectory fetch occurs. -/
theorem processHost_depth_one_recursive_irrelevant (cfg : GlobalConfig)
    (os : Oracles) (cE hC : Bool) (tFN : String) (pB : String → Bool)
    (bH sH : List String) (hostURL : String) (fs : List String) :
    processHost cfg
        { filters := fs, recursive := "yes", maxDepth := 1 }
        os cE hC tFN pB bH sH hostURL =
      processHost cfg
        { filters := fs, recursive := "no", maxDepth := 1 }
        os cE hC tFN pB bH sH hostURL := by
  unfold processHost
  simp only [processDirectoryContent_depth_one]

end Censei.Worker

namespace Censei.Output

/-- C10: a line that does not split into exactly two parts around
`" with Content-Type: "`, or whose URL part fails to parse, makes
`WriteBinaryOutput` return an error and leaves the accumulated
binary-findings state unchanged, so the line contributes nothing to
`binary_found.txt` at close. -/
theorem writeBinaryOutput_rejects_malformed
    (parse : String → Option (String × String)) (st : WriterSt)
    (line : String)
    (h : (Censei.splitOnSep line ctSep).length ≠ 2 ∨
      ∃ p0 p1, Censei.splitOnSep line ctSep = [p0, p1] ∧
        parse (Censei.trimString p0) = none) :
    (∃ msg, WriteBinaryOutput parse st line = .error msg) ∧
      applyBinaryLine parse st line = st := by
  have : ∃ msg, WriteBinaryOutput parse st line = .error msg := by
    unfold WriteBinaryOutput
    rcases h with h | ⟨p0, p1, hs, hp⟩
    · rcases hs : Censei.splitOnSep line ctSep with _ | ⟨a, _ | ⟨b, _ | ⟨c, t⟩⟩⟩
      · exact ⟨_, rfl⟩
      · exact ⟨_, rfl⟩
      · exact absurd (by rw [hs]; rfl) h
      · exact ⟨_, rfl⟩
    · rw [hs]
      simp only [hp]
      exact ⟨_, rfl⟩
  refine ⟨this, ?_⟩
  obtain ⟨msg, hmsg⟩ := this
  unfold applyBinaryLine
  rw [hmsg]

end Censei.Output

namespace Censei.Output

/-- Witness for the malformed-line theorem: a line with no separator is
rejected and leaves the empty writer state unchanged. -/
theorem writeBinaryOutput_rejects_malformed_witness :
    ((Censei.splitOnSep "no separator here" ctSep).length ≠ 2 ∨
      ∃ p0 p1, Censei.splitOnSep "no separator here" ctSep = [p0, p1] ∧
        (fun (_ : String) => (none : Option (String × String)))
          (Censei.trimString p0) = none) ∧
    ((∃ msg, WriteBinaryOutput (fun _ => none) emptyWriter
        "no separator here" = .error msg) ∧
      applyBinaryLine (fun _ => none) emptyWriter "no separator here" =
        emptyWriter) :=
  ⟨Or.inl (by decide),
   writeBinaryOutput_rejects_malformed _ _ _ (Or.inl (by decide))⟩

end Censei.Output

namespace Censei.FileChecker

/-- C1 counterexample: for the file name `"../x"` (which contains `".."`)
with checking enabled, `CheckSpecificFile` does not refuse: it issues the
GET for `"http://h/../x"` and, when the server answers 200 with a binary
content type, even returns `found = true` with no error. -/
theorem checkSpecificFile_traversal_counterexample :
    Censei.strContains "../x" ".." = true ∧
    (CheckSpecificFile true (fun _ => false)
        (fun _ => some { status := 200,
                         contentType := "application/octet-stream" })
        "http://h" "../x").requests = ["http://h/../x"] ∧
    (CheckSpecificFile true (fun _ => false)
        (fun _ => some { status := 200,
                         contentType := "application/octet-stream" })
        "http://h" "../x").found = true ∧
    (CheckSpecificFile true (fun _ => false)
        (fun _ => some { status := 200,
                         contentType := "application/octet-stream" })
        "http://h" "../x").isErr = false := by
  refine ⟨by decide, by decide, by decide, by decide⟩

/-- C1 amended: `CheckSpecificFile` performs no validation of the file
name.  Whenever checking is enabled and the request for
`TrimSuffix(baseURL, "/") + "/" + fileName` can be constructed, exactly
that one GET is issued — for every file name, including names containing
`".."`, `"/"` or `"\"` — and the outcome depends only on the response;
the probe is refused without any request only when checking is disabled
(or the URL itself is rejected by the HTTP library). -/
theorem checkSpecificFile_no_validation (reqFail : String → Bool)
    (http : String → Option HttpResp) (baseURL fileName : String)
    (hreq : reqFail (Censei.trimSuffixSlash baseURL ++ "/" ++ fileName) =
      false) :
    (CheckSpecificFile true reqFail http baseURL fileName).requests =
      [Censei.trimSuffixSlash baseURL ++ "/" ++ fileName] ∧
    (CheckSpecificFile false reqFail http baseURL fileName).requests = [] ∧
    (CheckSpecificFile false reqFail http baseURL fileName).isErr = true := by
  refine ⟨?_, by rfl, by rfl⟩
  unfold CheckSpecificFile
  simp only [Bool.not_true, Bool.false_eq_true, if_false, hreq]
  cases http (Censei.trimSuffixSlash baseURL ++ "/" ++ fileName) with
  | none => rfl
  | some resp =>
    by_cases hs : resp.status ≠ 200
    · simp [hs]
    · by_cases hb : (binaryContentTypes.any fun b =>
          Censei.strContains resp.contentType b) = true
      · simp [hs, hb]
      · simp [hs, hb]

/-- Witness for the no-validation theorem at a traversal-style name. -/
theorem checkSpecificFile_no_validation_witness :
    ((fun (_ : String) => false)
        (Censei.trimSuffixSlash "http://h" ++ "/" ++ "../x") = false) ∧
    ((CheckSpecificFile true (fun _ => false) (fun _ => none)
        "http://h" "../x").requests =
      [Censei.trimSuffixSlash "http://h" ++ "/" ++ "../x"] ∧
    (CheckSpecificFile false (fun _ => false) (fun _ => none)
        "http://h" "../x").requests = [] ∧
    (CheckSpecificFile false (fun _ => false) (fun _ => none)
        "http://h" "../x").isErr = true) :=
  ⟨rfl, checkSpecificFile_no_validation _ _ _ _ rfl⟩

end Censei.FileChecker


namespace Censei.Worker

open Censei.Scanners Censei.Output Censei.FileChecker

/-- C6 counterexample: a host whose fetch returns online with an empty
body does not make the pipeline return right after emitting the host URL:
in targeted check mode the targeted probe is still invoked for it. -/
theorem processHost_empty_body_counterexample :
    (processHost
        { maxLinksPerDirectory := 0, maxTotalLinks := 0,
          maxSkipsBeforeBlock := 0, enableBlocklist := false }
        { filters := [], recursive := "no", maxDepth := 1 }
        { extractBase := fun _ => "h",
          fetch := fun _ => some { text := "", anchors := some [] },
          extract := fun _ _ => [], reqFail := fun _ => false,
          http := fun _ => none, probeFile := fun _ => none }
        true true "t.exe" (fun _ => false) [] [] "http://h").specificChecks
      = [("http://h", "t.exe")] := by
  decide

/-- C6 amended: for a host whose fetch returns online with an empty body,
the pipeline increments `onlineHosts` and emits the host URL to the raw
stream, and the directory walker is never invoked (the empty body is not
a directory listing) and no file is recorded — but it does not return
immediately: the targeted probe is still invoked exactly when targeted
check mode is active. -/
theorem processHost_empty_body (cfg : GlobalConfig) (qc : QueryConfig)
    (os : Oracles) (cE hC : Bool) (tFN : String) (pB : String → Bool)
    (bH sH : List String) (hostURL : String)
    (h1 : pB (os.extractBase hostURL) = false)
    (h2 : bH.contains (os.extractBase hostURL) = false)
    (h3 : sH.contains hostURL = false)
    (h4 : os.fetch hostURL = some { text := "", anchors := some [] }) :
    (processHost cfg qc os cE hC tFN pB bH sH hostURL).onlineDelta = 1 ∧
    (processHost cfg qc os cE hC tFN pB bH sH hostURL).rawLines.head? =
      some hostURL ∧
    (processHost cfg qc os cE hC tFN pB bH sH hostURL).recursiveScans
      = [] ∧
    (processHost cfg qc os cE hC tFN pB bH sH hostURL).plainScans = [] ∧
    (processHost cfg qc os cE hC tFN pB bH sH hostURL).totalFilesDelta
      = 0 ∧
    (processHost cfg qc os cE hC tFN pB bH sH hostURL).filteredLines
      = [] ∧
    (processHost cfg qc os cE hC tFN pB bH sH hostURL).specificChecks =
      (if cE && hC && tFN ≠ "" then [(hostURL, tFN)] else []) := by
  have hld : IsDirectoryListing { text := "", anchors := some [] }
      = false := by decide
  unfold processHost processDirectoryContent
  simp only [h1, h2, h3, h4, hld, Bool.false_eq_true, if_false]
  by_cases hT : (cE && hC && decide (tFN ≠ "")) = true
  · rw [Bool.and_eq_true, Bool.and_eq_true] at hT
    obtain ⟨⟨hcE, hhC⟩, htfn⟩ := hT
    rw [decide_eq_true_eq] at htfn
    subst hcE
    subst hhC
    by_cases hf : (!(CheckSpecificFile true os.reqFail os.http hostURL
        tFN).isErr && (CheckSpecificFile true os.reqFail os.http hostURL
        tFN).found) = true
    · rw [Bool.and_eq_true, Bool.not_eq_true'] at hf
      obtain ⟨herr, hfound⟩ := hf
      simp [htfn, herr, hfound, noEffects]
    · simp only [Bool.and_eq_true, Bool.not_eq_true'] at hf
      simp [htfn, hf, noEffects]
  · simp only [Bool.and_eq_true, decide_eq_true_eq] at hT
    simp [hT, noEffects]

/-- Witness for the empty-body theorem, in non-targeted mode. -/
theorem processHost_empty_body_witness :
    ((fun (_ : String) => false) "h" = false ∧
      ([] : List String).contains "h" = false ∧
      ([] : List String).contains "http://h" = false ∧
      (fun (_ : String) =>
          some ({ text := "", anchors := some [] } : Body))
        "http://h" = some ({ text := "", anchors := some [] } : Body)) ∧
    (processHost
        { maxLinksPerDirectory := 0, maxTotalLinks := 0,
          maxSkipsBeforeBlock := 0, enableBlocklist := false }
        { filters := [], recursive := "no", maxDepth := 1 }
        { extractBase := fun _ => "h",
          fetch := fun _ => some { text := "", anchors := some [] },
          extract := fun _ _ => [], reqFail := fun _ => false,
          http := fun _ => none, probeFile := fun _ => none }
        false false "" (fun _ => false) [] [] "http://h").onlineDelta
      = 1 := by
  refine ⟨⟨rfl, rfl, rfl, rfl⟩, ?_⟩
  exact (processHost_empty_body
    { maxLinksPerDirectory := 0, maxTotalLinks := 0,
      maxSkipsBeforeBlock := 0, enableBlocklist := false }
    { filters := [], recursive := "no", maxDepth := 1 }
    { extractBase := fun _ => "h",
      fetch := fun _ => some { text := "", anchors := some [] },
      extract := fun _ _ => [], reqFail := fun _ => false,
      http := fun _ => none, probeFile := fun _ => none }
    false false "" (fun _ => false) [] [] "http://h"
    rfl rfl rfl rfl).1

end Censei.Worker

namespace Censei.Scanners

/-- Folding a step function that preserves a predicate preserves it. -/
theorem foldl_preserve {α : Type _} {σ : Type _} (f : σ → α → σ)
    (P : σ → Prop) (h : ∀ s a, P s → P (f s a)) :
    ∀ (l : List α) (s : σ), P s → P (l.foldl f s) := by
  intro l
  induction l with
  | nil => intro s hs; exact hs
  | cons a t ih => intro s hs; exact ih (f s a) (h s a hs)

/-- Entering any node while the counter strictly exceeds a positive
`maxTotalLinks` only invokes the skip callback on the current URL and
abandons the subtree: nothing else of the state changes. -/
theorem scanAux_skip (cfg : GlobalConfig) (fetch : String → Option Body)
    (extract : String → Body → List String) (maxDepth gas : Nat)
    (url : String) (content : Body) (depth : Nat) (st : WalkSt)
    (hT : 0 < cfg.maxTotalLinks) (hover : cfg.maxTotalLinks < st.total) :
    scanAux cfg fetch extract maxDepth gas url content depth st =
      { st with skips := st.skips ++ [url] } := by
  have hc : (cfg.maxTotalLinks > 0 && st.total > cfg.maxTotalLinks)
      = true := by
    simp only [Bool.and_eq_true, decide_eq_true_eq]
    exact ⟨hT, hover⟩
  cases gas <;> · unfold scanAux; rw [if_pos hc]

/-- The walker's counter always equals the number of accumulated file
URLs (both start at zero and are advanced together). -/
theorem scanAux_total_eq_links (cfg : GlobalConfig)
    (fetch : String → Option Body)
    (extract : String → Body → List String) (maxDepth : Nat) :
    ∀ (gas : Nat) (url : String) (content : Body) (depth : Nat)
      (st : WalkSt), st.total = st.links.length →
      (scanAux cfg fetch extract maxDepth gas url content depth st).total =
        (scanAux cfg fetch extract maxDepth gas url content depth
          st).links.length := by
  intro gas
  induction gas with
  | zero =>
    intro url content depth st h
    unfold scanAux
    by_cases h1 : (cfg.maxTotalLinks > 0 && st.total > cfg.maxTotalLinks)
        = true
    · rw [if_pos h1]; exact h
    · rw [if_neg h1]; exact h
  | succ g ih =>
    intro url content depth st h
    unfold scanAux
    by_cases h1 : (cfg.maxTotalLinks > 0 && st.total > cfg.maxTotalLinks)
        = true
    · rw [if_pos h1]; exact h
    · rw [if_neg h1]
      by_cases h2 : (st.visited.contains url || decide (depth ≥ maxDepth))
          = true
      · rw [if_pos h2]; exact h
      · rw [if_neg h2]
        by_cases h3 : depth + 1 < maxDepth
        · rw [if_pos h3]
          refine foldl_preserve _
            (fun s : WalkSt => s.total = s.links.length) ?_ _ _ ?_
          · intro s d hs
            cases hfetch : fetch d with
            | none => simpa [hfetch] using hs
            | some b =>
              by_cases hl : IsDirectoryListing b = true
              · simpa [hfetch, hl] using ih d b (depth + 1) s hs
              · simpa [hfetch, hl] using hs
          · simp [h]
        · rw [if_neg h3]
          simp [h]

end Censei.Scanners

namespace Censei.Scanners

/-- Bound invariant of the walk: the counter stays within the budget, or
some already-processed node accounts for the single overshoot. -/
theorem scanAux_bound (cfg : GlobalConfig) (fetch : String → Option Body)
    (extract : String → Body → List String) (maxDepth : Nat)
    (hT : 0 < cfg.maxTotalLinks) :
    ∀ (gas : Nat) (url : String) (content : Body) (depth : Nat)
      (st : WalkSt),
      (st.total ≤ cfg.maxTotalLinks ∨
        ∃ p ∈ st.trace, st.total ≤ cfg.maxTotalLinks +
          (nodeFiles cfg extract p.1 p.2).length) →
      ((scanAux cfg fetch extract maxDepth gas url content depth st).total
          ≤ cfg.maxTotalLinks ∨
        ∃ p ∈ (scanAux cfg fetch extract maxDepth gas url content depth
          st).trace,
          (scanAux cfg fetch extract maxDepth gas url content depth
            st).total ≤
            cfg.maxTotalLinks + (nodeFiles cfg extract p.1 p.2).length) := by
  intro gas
  induction gas with
  | zero =>
    intro url content depth st hP
    unfold scanAux
    by_cases h1 : (cfg.maxTotalLinks > 0 && st.total > cfg.maxTotalLinks)
        = true
    · rw [if_pos h1]; exact hP
    · rw [if_neg h1]; exact hP
  | succ g ih =>
    intro url content depth st hP
    unfold scanAux
    by_cases h1 : (cfg.maxTotalLinks > 0 && st.total > cfg.maxTotalLinks)
        = true
    · rw [if_pos h1]; exact hP
    · rw [if_neg h1]
      have hle : st.total ≤ cfg.maxTotalLinks := by
        rcases le_or_lt st.total cfg.maxTotalLinks with h | h
        · exact h
        · exact absurd (by
            simp only [Bool.and_eq_true, decide_eq_true_eq]
            exact ⟨hT, h⟩) h1
      by_cases h2 : (st.visited.contains url || decide (depth ≥ maxDepth))
          = true
      · rw [if_pos h2]; exact hP
      · rw [if_neg h2]
        have hst2 :
            (st.total + (nodeFiles cfg extract url content).length ≤
                cfg.maxTotalLinks ∨
              ∃ p ∈ st.trace ++ [(url, content)],
                st.total + (nodeFiles cfg extract url content).length ≤
                  cfg.maxTotalLinks +
                    (nodeFiles cfg extract p.1 p.2).length) := by
          right
          refine ⟨(url, content), by simp, ?_⟩
          exact Nat.add_le_add_right hle _
        by_cases h3 : depth + 1 < maxDepth
        · rw [if_pos h3]
          refine foldl_preserve _
            (fun s : WalkSt => s.total ≤ cfg.maxTotalLinks ∨
              ∃ p ∈ s.trace, s.total ≤ cfg.maxTotalLinks +
                (nodeFiles cfg extract p.1 p.2).length) ?_ _ _ hst2
          intro s d hs
          cases hfetch : fetch d with
          | none => simpa [hfetch] using hs
          | some b =>
            by_cases hl : IsDirectoryListing b = true
            · simpa [hfetch, hl] using ih d b (depth + 1) s hs
            · simpa [hfetch, hl] using hs
        · rw [if_neg h3]
          exact hst2

/-- C2: with a positive total-links budget `T`, (a) every node entered
while the counter strictly exceeds `T` only invokes the skip callback on
the current URL and is not descended into, and (b) the file-URL list a
recursive host scan returns has length at most `T`, or at most `T` plus
the number of (per-directory-capped) links of one of the directories the
walk processed — the one whose addition pushed the counter over `T`. -/
theorem scanHostRecursive_budget (cfg : GlobalConfig)
    (fetch : String → Option Body)
    (extract : String → Body → List String) (maxDepth : Nat)
    (url0 : String) (content0 : Body)
    (hT : 0 < cfg.maxTotalLinks) (hD : 0 < maxDepth) :
    (∀ (url : String) (content : Body) (depth : Nat) (st : WalkSt),
      cfg.maxTotalLinks < st.total →
      scanRecursive cfg fetch extract maxDepth url content depth st =
        { st with skips := st.skips ++ [url] }) ∧
    ((ScanHostRecursive cfg fetch extract url0 content0
        maxDepth).links.length ≤ cfg.maxTotalLinks ∨
      ∃ p ∈ (ScanHostRecursive cfg fetch extract url0 content0
          maxDepth).trace,
        (ScanHostRecursive cfg fetch extract url0 content0
          maxDepth).links.length ≤
          cfg.maxTotalLinks + (nodeLinks cfg extract p.1 p.2).length) := by
  constructor
  · intro url content depth st hover
    exact scanAux_skip cfg fetch extract maxDepth _ url content depth st
      hT hover
  · have hmd : ¬ maxDepth = 0 := by omega
    unfold ScanHostRecursive
    rw [if_neg hmd]
    unfold scanRecursive
    have hL := scanAux_total_eq_links cfg fetch extract maxDepth
      (maxDepth - 0) url0 content0 0 initWalkSt rfl
    have hB := scanAux_bound cfg fetch extract maxDepth hT
      (maxDepth - 0) url0 content0 0 initWalkSt
      (Or.inl (Nat.zero_le _))
    rw [hL] at hB
    rcases hB with hB | ⟨p, hpmem, hple⟩
    · exact Or.inl hB
    · refine Or.inr ⟨p, hpmem, le_trans hple ?_⟩
      have hfl : (nodeFiles cfg extract p.1 p.2).length ≤
          (nodeLinks cfg extract p.1 p.2).length :=
        List.length_filter_le _ _
      omega

/-- Witness for the budget theorem: budget 1, three file links at the
root, depth 2. -/
theorem scanHostRecursive_budget_witness :
    (0 < (1 : Nat) ∧ 0 < (2 : Nat)) ∧
    ((∀ (url : String) (content : Body) (depth : Nat) (st : WalkSt),
      (1 : Nat) < st.total →
      scanRecursive ⟨0, 1, 0, false⟩ (fun _ => none)
          (fun _ _ => ["a.x", "b.x", "c.x"]) 2 url content depth st =
        { st with skips := st.skips ++ [url] }) ∧
    ((ScanHostRecursive ⟨0, 1, 0, false⟩ (fun _ => none)
        (fun _ _ => ["a.x", "b.x", "c.x"]) "r" ⟨"", some []⟩
        2).links.length ≤ 1 ∨
      ∃ p ∈ (ScanHostRecursive ⟨0, 1, 0, false⟩ (fun _ => none)
          (fun _ _ => ["a.x", "b.x", "c.x"]) "r" ⟨"", some []⟩ 2).trace,
        (ScanHostRecursive ⟨0, 1, 0, false⟩ (fun _ => none)
          (fun _ _ => ["a.x", "b.x", "c.x"]) "r" ⟨"", some []⟩
          2).links.length ≤
          1 + (nodeLinks ⟨0, 1, 0, false⟩
            (fun _ _ => ["a.x", "b.x", "c.x"]) p.1 p.2).length)) :=
  ⟨⟨by decide, by decide⟩,
   scanHostRecursive_budget ⟨0, 1, 0, false⟩ (fun _ => none)
     (fun _ _ => ["a.x", "b.x", "c.x"]) 2 "r" ⟨"", some []⟩
     (by decide) (by decide)⟩

end Censei.Scanners

namespace Censei.Worker

/-- Reading a counter after bumping: the bumped key gains one. -/
theorem counterOf_bump_self (m : List (String × Nat)) (k : String) :
    counterOf (bumpCounter m k).1 k = counterOf m k + 1 := by
  induction m with
  | nil => simp [bumpCounter, counterOf]
  | cons e rest ih =>
    obtain ⟨k0, v⟩ := e
    by_cases hk : k0 = k
    · simp [bumpCounter, counterOf, hk]
    · simp [bumpCounter, counterOf, hk, ih]

/-- Reading a counter after bumping a different key: unchanged. -/
theorem counterOf_bump_ne (m : List (String × Nat)) (k k' : String)
    (h : k' ≠ k) :
    counterOf (bumpCounter m k).1 k' = counterOf m k' := by
  induction m with
  | nil =>
    simp [bumpCounter, counterOf]
    intro he
    exact absurd he.symm h
  | cons e rest ih =>
    obtain ⟨k0, v⟩ := e
    by_cases hk : k0 = k
    · subst hk
      have : ¬ k0 = k' := fun he => h (he.symm)
      simp [bumpCounter, counterOf, this]
    · by_cases hk' : k0 = k'
      · simp [bumpCounter, counterOf, hk, hk', h, ih]
      · simp [bumpCounter, counterOf, hk, hk', ih]

/-- The value returned by `bumpCounter` is the incremented reading. -/
theorem bumpCounter_snd (m : List (String × Nat)) (k : String) :
    (bumpCounter m k).2 = counterOf m k + 1 := by
  induction m with
  | nil => simp [bumpCounter, counterOf]
  | cons e rest ih =>
    obtain ⟨k0, v⟩ := e
    by_cases hk : k0 = k
    · simp [bumpCounter, counterOf, hk]
    · simp [bumpCounter, counterOf, hk, ih]

/-- Membership after a `sync.Map.Store`. -/
theorem mem_storeHost (s : List String) (x y : String) :
    y ∈ storeHost s x ↔ y = x ∨ y ∈ s := by
  unfold storeHost
  by_cases hc : s.contains x
  · rw [if_pos hc]
    constructor
    · exact fun h => Or.inr h
    · rintro (rfl | h)
      · simpa using hc
      · exact h
  · rw [if_neg hc]
    simp [or_comm]

/-- Lookup in an association list extended with a final binding. -/
theorem lookupTs_append_single (m : List (String × Nat)) (now : Nat)
    (h b : String) :
    (Censei.Blocklist.lookupTs (m ++ [(h, now)]) b).isSome = true ↔
      b = h ∨ (Censei.Blocklist.lookupTs m b).isSome = true := by
  induction m with
  | nil =>
    by_cases hhb : h = b
    · simp [Censei.Blocklist.lookupTs, hhb]
    · simp [Censei.Blocklist.lookupTs, hhb]
      exact fun he => absurd he.symm hhb
  | cons e rest ih =>
    obtain ⟨k0, v0⟩ := e
    by_cases hk : k0 = b
    · simp [Censei.Blocklist.lookupTs, hk]
    · simp only [List.cons_append, Censei.Blocklist.lookupTs, hk,
        if_false]
      exact ih

/-- Membership in the persistent blocklist after `AddHost` on an enabled
blocklist. -/
theorem lookupTs_addHost_isSome (now : Nat) (m : List (String × Nat))
    (h b : String) :
    (Censei.Blocklist.lookupTs
        (Censei.Blocklist.AddHost true now m h) b).isSome = true ↔
      b = h ∨ (Censei.Blocklist.lookupTs m b).isSome = true := by
  unfold Censei.Blocklist.AddHost
  simp only [Bool.not_true, Bool.false_eq_true, if_false]
  by_cases hm : (Censei.Blocklist.lookupTs m h).isSome = true
  · rw [if_pos hm]
    constructor
    · exact fun hh => Or.inr hh
    · rintro (rfl | hh)
      · exact hm
      · exact hh
  · rw [if_neg hm]
    exact lookupTs_append_single m now h b

end Censei.Worker

namespace Censei.Worker

open Censei.Scanners

/-- One skip event appended: counting the events attributed to a base
hostname adds the event's own contribution. -/
theorem countBase_append (eb : String → String)
    (events : List (String × String)) (e : String × String) (b : String) :
    countBase eb (events ++ [e]) b =
      countBase eb events b + (if eb e.2 = b then 1 else 0) := by
  unfold countBase
  rw [List.countP_append]
  by_cases hb : eb e.2 = b
  · simp [hb]
  · simp [hb]

/-- Full invariant of the serialized skip-event run with a positive block
threshold `K` and an enabled blocklist: the per-base counters equal the
event counts, a base hostname is in the in-run blocked set (and the
persistent blocklist) exactly when at least `K` events were counted for
it, and every skipped origin stems from an event whose base hostname
reached the threshold. -/
theorem runSkips_invariant (cfg : GlobalConfig) (eb : String → String)
    (now : Nat) (hK : 0 < cfg.maxSkipsBeforeBlock)
    (hE : cfg.enableBlocklist = true) :
    ∀ events : List (String × String),
      (∀ b, counterOf (runSkips cfg eb now events).skipCounters b =
        countBase eb events b) ∧
      (∀ b, b ∈ (runSkips cfg eb now events).blockedHosts ↔
        cfg.maxSkipsBeforeBlock ≤ countBase eb events b) ∧
      (∀ b, (Censei.Blocklist.lookupTs
          (runSkips cfg eb now events).blocklist b).isSome = true ↔
        cfg.maxSkipsBeforeBlock ≤ countBase eb events b) ∧
      (∀ o, o ∈ (runSkips cfg eb now events).skippedHosts →
        ∃ e ∈ events, e.1 = o ∧
          cfg.maxSkipsBeforeBlock ≤ countBase eb events (eb e.2)) := by
  intro events
  induction events using List.reverseRecOn with
  | nil =>
    refine ⟨?_, ?_, ?_, ?_⟩
    · intro b
      simp [runSkips, initSuppress, counterOf, countBase]
    · intro b
      simp only [runSkips, List.foldl_nil, initSuppress,
        List.not_mem_nil, false_iff]
      unfold countBase
      simp
      omega
    · intro b
      simp only [runSkips, List.foldl_nil, initSuppress]
      unfold Censei.Blocklist.lookupTs countBase
      simp
      omega
    · intro o
      simp [runSkips, initSuppress]
  | append_singleton events e ih =>
    obtain ⟨ihc, ihb, ihl, ihs⟩ := ih
    have hfold : runSkips cfg eb now (events ++ [e]) =
        recordSkip cfg eb now (runSkips cfg eb now events) e := by
      unfold runSkips
      rw [List.foldl_append]
      rfl
    have hnew : (bumpCounter
        (runSkips cfg eb now events).skipCounters (eb e.2)).2 =
        countBase eb events (eb e.2) + 1 := by
      rw [bumpCounter_snd, ihc]
    by_cases hth :
        cfg.maxSkipsBeforeBlock ≤ countBase eb events (eb e.2) + 1
    · have hcond : (cfg.maxSkipsBeforeBlock > 0 &&
          (bumpCounter (runSkips cfg eb now events).skipCounters
            (eb e.2)).2 ≥ cfg.maxSkipsBeforeBlock) = true := by
        simp only [Bool.and_eq_true, decide_eq_true_eq]
        exact ⟨hK, by rw [hnew]; exact hth⟩
      rw [hfold]
      unfold recordSkip
      rw [if_pos hcond]
      refine ⟨?_, ?_, ?_, ?_⟩
      · intro b
        rw [countBase_append]
        by_cases hb : eb e.2 = b
        · rw [if_pos hb, ← hb, counterOf_bump_self, ihc]
        · rw [if_neg hb, Nat.add_zero,
            counterOf_bump_ne _ _ _ (fun hc => hb hc.symm), ihc]
      · intro b
        rw [mem_storeHost, countBase_append, ihb]
        by_cases hb : eb e.2 = b
        · rw [if_pos hb]
          constructor
          · intro _
            rw [← hb]
            exact hth
          · intro _
            exact Or.inl hb.symm
        · rw [if_neg hb]
          constructor
          · rintro (rfl | hmem)
            · exact absurd rfl hb
            · exact hmem
          · exact fun hc => Or.inr hc
      · intro b
        rw [hE, lookupTs_addHost_isSome, countBase_append, ihl]
        by_cases hb : eb e.2 = b
        · rw [if_pos hb]
          constructor
          · intro _
            rw [← hb]
            exact hth
          · intro _
            exact Or.inl hb.symm
        · rw [if_neg hb]
          constructor
          · rintro (rfl | hmem)
            · exact absurd rfl hb
            · exact hmem
          · exact fun hc => Or.inr hc
      · intro o ho
        rw [mem_storeHost] at ho
        rcases ho with rfl | ho
        · refine ⟨e, by simp, rfl, ?_⟩
          rw [countBase_append, if_pos rfl]
          exact hth
        · obtain ⟨e1, he1, heq, hle⟩ := ihs o ho
          refine ⟨e1, by simp [he1], heq, ?_⟩
          rw [countBase_append]
          by_cases hb : eb e.2 = eb e1.2
          · rw [if_pos hb]; omega
          · rw [if_neg hb]; omega
    · have hcond : ¬ (cfg.maxSkipsBeforeBlock > 0 &&
          (bumpCounter (runSkips cfg eb now events).skipCounters
            (eb e.2)).2 ≥ cfg.maxSkipsBeforeBlock) = true := by
        simp only [Bool.and_eq_true, decide_eq_true_eq, not_and]
        intro _
        rw [hnew]
        exact hth
      rw [hfold]
      unfold recordSkip
      rw [if_neg hcond]
      refine ⟨?_, ?_, ?_, ?_⟩
      · intro b
        rw [countBase_append]
        by_cases hb : eb e.2 = b
        · rw [if_pos hb, ← hb, counterOf_bump_self, ihc]
        · rw [if_neg hb, Nat.add_zero,
            counterOf_bump_ne _ _ _ (fun hc => hb hc.symm), ihc]
      · intro b
        rw [countBase_append]
        show b ∈ (runSkips cfg eb now events).blockedHosts ↔ _
        rw [ihb]
        by_cases hb : eb e.2 = b
        · rw [if_pos hb, ← hb]
          have hc := ihc (eb e.2)
          constructor
          · intro hge
            omega
          · intro hge
            omega
        · rw [if_neg hb, Nat.add_zero]
      · intro b
        rw [countBase_append]
        show (Censei.Blocklist.lookupTs
            (runSkips cfg eb now events).blocklist b).isSome = true ↔ _
        rw [ihl]
        by_cases hb : eb e.2 = b
        · rw [if_pos hb, ← hb]
          constructor
          · intro hge
            omega
          · intro hge
            omega
        · rw [if_neg hb, Nat.add_zero]
      · intro o ho
        obtain ⟨e1, he1, heq, hle⟩ := ihs o ho
        refine ⟨e1, by simp [he1], heq, ?_⟩
        rw [countBase_append]
        by_cases hb : eb e.2 = eb e1.2
        · rw [if_pos hb]; omega
        · rw [if_neg hb]; omega

end Censei.Worker

namespace Censei.Worker

open Censei.Scanners

/-- C4: with `maxSkipsBeforeBlock = K > 0` (and the blocklist enabled),
after any serialized sequence of skip events a base hostname is in the
in-run blocked set iff at least `K` skip events were recorded for it, it
is in the persistent blocklist iff the same holds, and every host URL in
`skippedHosts` was stored by an event whose base hostname reached the
threshold. -/
theorem blockedSet_iff_threshold (cfg : GlobalConfig)
    (eb : String → String) (now : Nat)
    (events : List (String × String))
    (hK : 0 < cfg.maxSkipsBeforeBlock)
    (hE : cfg.enableBlocklist = true) :
    (∀ b, b ∈ (runSkips cfg eb now events).blockedHosts ↔
      cfg.maxSkipsBeforeBlock ≤ countBase eb events b) ∧
    (∀ b, (Censei.Blocklist.lookupTs
        (runSkips cfg eb now events).blocklist b).isSome = true ↔
      cfg.maxSkipsBeforeBlock ≤ countBase eb events b) ∧
    (∀ o, o ∈ (runSkips cfg eb now events).skippedHosts →
      ∃ e ∈ events, e.1 = o ∧
        cfg.maxSkipsBeforeBlock ≤ countBase eb events (eb e.2)) := by
  obtain ⟨_, h2, h3, h4⟩ := runSkips_invariant cfg eb now hK hE events
  exact ⟨h2, h3, h4⟩

/-- Witness for the threshold theorem: one skip event and `K = 1` block
the event's base hostname. -/
theorem blockedSet_iff_threshold_witness :
    (0 < (1 : Nat) ∧ (true : Bool) = true) ∧
    ((∀ b, b ∈ (runSkips ⟨0, 0, 1, true⟩ (fun _ => "b") 5
        [("o", "u")]).blockedHosts ↔
      1 ≤ countBase (fun _ => "b") [("o", "u")] b) ∧
    (∀ b, (Censei.Blocklist.lookupTs
        (runSkips ⟨0, 0, 1, true⟩ (fun _ => "b") 5
          [("o", "u")]).blocklist b).isSome = true ↔
      1 ≤ countBase (fun _ => "b") [("o", "u")] b) ∧
    (∀ o, o ∈ (runSkips ⟨0, 0, 1, true⟩ (fun _ => "b") 5
        [("o", "u")]).skippedHosts →
      ∃ e ∈ [("o", "u")], e.1 = o ∧
        1 ≤ countBase (fun _ => "b") [("o", "u")]
          ((fun _ => "b") e.2))) :=
  ⟨⟨by decide, rfl⟩,
   blockedSet_iff_threshold ⟨0, 0, 1, true⟩ (fun _ => "b") 5
     [("o", "u")] (by decide) rfl⟩

end Censei.Worker

namespace Censei.Output

/-- A key absent from the map reads as the empty group. -/
theorem lookupGroup_eq_nil_of_not_mem
    (gs : List (String × List BinaryFinding)) (k : String)
    (h : k ∉ gs.map Prod.fst) : lookupGroup gs k = [] := by
  induction gs with
  | nil => rfl
  | cons e rest ih =>
    obtain ⟨k0, fs⟩ := e
    simp only [List.map_cons, List.mem_cons, not_or] at h
    unfold lookupGroup
    rw [if_neg (fun hc => h.1 hc.symm)]
    exact ih h.2

/-- A key present in the map reads back as one of its bindings. -/
theorem lookupGroup_mem (gs : List (String × List BinaryFinding))
    (k : String) (h : k ∈ gs.map Prod.fst) :
    (k, lookupGroup gs k) ∈ gs := by
  induction gs with
  | nil => simp at h
  | cons e rest ih =>
    obtain ⟨k0, fs⟩ := e
    by_cases hk : k0 = k
    · subst hk
      simp [lookupGroup]
    · unfold lookupGroup
      rw [if_neg hk]
      simp only [List.map_cons, List.mem_cons] at h
      rcases h with h | h
      · exact absurd h.symm hk
      · exact List.mem_cons_of_mem _ (ih h)

/-- The key list after a map write: unchanged for a present key, extended
by the key otherwise. -/
theorem updateGroup_map_fst (gs : List (String × List BinaryFinding))
    (k : String) (fs : List BinaryFinding) :
    (updateGroup gs k fs).map Prod.fst =
      (if k ∈ gs.map Prod.fst then gs.map Prod.fst
       else gs.map Prod.fst ++ [k]) := by
  induction gs with
  | nil => simp [updateGroup]
  | cons e rest ih =>
    obtain ⟨k0, old⟩ := e
    by_cases hk : k0 = k
    · subst hk
      simp [updateGroup]
    · unfold updateGroup
      rw [if_neg hk]
      by_cases hm : k ∈ rest.map Prod.fst
      · simp only [List.map_cons, ih, if_pos hm]
        rw [if_pos]
        simp [hm]
      · simp only [List.map_cons, ih, if_neg hm]
        rw [if_neg]
        · simp
        · simp only [List.map_cons, List.mem_cons, not_or]
          exact ⟨fun hc => hk hc.symm, hm⟩

/-- Membership after a map write with distinct keys: the new binding, or
an old binding of a different key. -/
theorem mem_updateGroup (gs : List (String × List BinaryFinding))
    (k : String) (fs : List BinaryFinding)
    (hnd : (gs.map Prod.fst).Nodup)
    (e : String × List BinaryFinding) (he : e ∈ updateGroup gs k fs) :
    e = (k, fs) ∨ (e ∈ gs ∧ e.1 ≠ k) := by
  induction gs with
  | nil =>
    simp only [updateGroup, List.mem_singleton] at he
    exact Or.inl he
  | cons e0 rest ih =>
    obtain ⟨k0, old⟩ := e0
    simp only [List.map_cons, List.nodup_cons] at hnd
    by_cases hk : k0 = k
    · subst hk
      unfold updateGroup at he
      rw [if_pos rfl] at he
      rcases List.mem_cons.mp he with rfl | hrest
      · exact Or.inl rfl
      · refine Or.inr ⟨List.mem_cons_of_mem _ hrest, ?_⟩
        intro hek
        exact hnd.1 (hek ▸ List.mem_map_of_mem Prod.fst hrest)
    · unfold updateGroup at he
      rw [if_neg hk] at he
      rcases List.mem_cons.mp he with rfl | hrest
      · exact Or.inr ⟨List.mem_cons_self _ _, hk⟩
      · rcases ih hnd.2 hrest with h | ⟨hmem, hne⟩
        · exact Or.inl h
        · exact Or.inr ⟨List.mem_cons_of_mem _ hmem, hne⟩

/-- The empty writer satisfies the invariant. -/
theorem writerInv_empty (parseURL : String → Option (String × String)) :
    WriterInv parseURL emptyWriter := by
  constructor
  · simp [emptyWriter]
  · intro e he
    simp [emptyWriter] at he

/-- `WriteBinaryOutput` (with its failure cases absorbed) preserves the
invariant. -/
theorem writerInv_applyBinaryLine
    (parseURL : String → Option (String × String)) (st : WriterSt)
    (line : String) (h : WriterInv parseURL st) :
    WriterInv parseURL (applyBinaryLine parseURL st line) := by
  unfold applyBinaryLine WriteBinaryOutput
  rcases hs : Censei.splitOnSep line ctSep with _ | ⟨p0, rest⟩
  · simp only [hs]; exact h
  rcases rest with _ | ⟨p1, rest2⟩
  · simp only [hs]; exact h
  rcases rest2 with _ | ⟨p2, rest3⟩
  case cons.cons.cons => simp only [hs]; exact h
  cases hp : parseURL (Censei.trimString p0) with
  | none => simp only [hs, hp]; exact h
  | some parsed =>
    by_cases hdup : (lookupGroup st.binaryFindings
        (groupKey parsed)).any
        (fun f => f.url = Censei.trimString p0) = true
    · simp only [hs, hp, hdup]
      exact h
    · simp only [hs, hp, hdup, Bool.false_eq_true, if_false]
      obtain ⟨hnd, hent⟩ := h
      have hexist :
          ((lookupGroup st.binaryFindings (groupKey parsed)).map
              BinaryFinding.url).Nodup ∧
          (∀ f ∈ lookupGroup st.binaryFindings (groupKey parsed),
            keyOf parseURL f.url = some (groupKey parsed)) := by
        by_cases hm : groupKey parsed ∈ st.binaryFindings.map Prod.fst
        · have := hent _ (lookupGroup_mem _ _ hm)
          exact ⟨this.2.1, this.2.2⟩
        · rw [lookupGroup_eq_nil_of_not_mem _ _ hm]
          exact ⟨List.nodup_nil, by intro f hf; simp at hf⟩
      constructor
      · rw [updateGroup_map_fst]
        by_cases hm : groupKey parsed ∈ st.binaryFindings.map Prod.fst
        · rw [if_pos hm]
          exact hnd
        · rw [if_neg hm]
          rw [List.nodup_append]
          exact ⟨hnd, List.nodup_singleton _,
            by intro a ha hb; simp at hb; subst hb; exact hm ha⟩
      · intro e he
        rcases mem_updateGroup _ _ _ hnd e he with rfl | ⟨hmem, _⟩
        · refine ⟨by simp, ?_, ?_⟩
          · rw [List.map_append]
            rw [List.nodup_append]
            refine ⟨hexist.1, by simp, ?_⟩
            intro a ha hb
            simp only [List.map_cons, List.map_nil,
              List.mem_singleton] at hb
            subst hb
            obtain ⟨f, hf, hfu⟩ := List.mem_map.mp ha
            have := List.any_eq_true.not.mp hdup
            push_neg at this
            exact this f hf (by simpa using hfu)
          · intro f hf
            rcases List.mem_append.mp hf with hf | hf
            · exact hexist.2 f hf
            · simp only [List.mem_singleton] at hf
              subst hf
              simp [keyOf, hp]
        · exact hent e hmem

end Censei.Output

namespace Censei.Output

/-- The invariant holds after any run of binary writes. -/
theorem writerInv_run (parseURL : String → Option (String × String))
    (lines : List String) :
    WriterInv parseURL (runBinaryWrites parseURL lines) :=
  Censei.Scanners.foldl_preserve _ (WriterInv parseURL)
    (fun s a hs => writerInv_applyBinaryLine parseURL s a hs)
    lines emptyWriter (writerInv_empty parseURL)

/-- `renderedGroups` with its local binding inlined. -/
theorem renderedGroups_eq (st : WriterSt) :
    renderedGroups st = (sortedHosts st).filterMap (fun host =>
      if (lookupGroup st.binaryFindings host).isEmpty then none
      else some (host,
        (lookupGroup st.binaryFindings host).map (fun f => f.url))) :=
  rfl

/-- The group keys of the rendered sections: the sorted key list with
empty groups filtered away. -/
theorem map_fst_renderedGroups (st : WriterSt) :
    (renderedGroups st).map Prod.fst =
      (sortedHosts st).filter
        (fun host => !(lookupGroup st.binaryFindings host).isEmpty) := by
  rw [renderedGroups_eq]
  induction sortedHosts st with
  | nil => rfl
  | cons h t ih =>
    simp only [List.filterMap_cons, List.filter_cons]
    by_cases he : (lookupGroup st.binaryFindings h).isEmpty = true
    · rw [if_pos he]
      simp only [he, Bool.not_true, Bool.false_eq_true, if_false]
      exact ih
    · rw [if_neg he]
      have hne : (!(lookupGroup st.binaryFindings h).isEmpty) = true := by
        simp [he]
      simp only [hne, if_true, List.map_cons]
      rw [ih]

/-- Every rendered section is a nonempty group read back from the map. -/
theorem mem_renderedGroups (st : WriterSt) (g : String × List String)
    (hg : g ∈ renderedGroups st) :
    g.1 ∈ st.binaryFindings.map Prod.fst ∧
      g.2 = (lookupGroup st.binaryFindings g.1).map
        (fun f => f.url) := by
  unfold renderedGroups at hg
  obtain ⟨host, hhost, heq⟩ := List.mem_filterMap.mp hg
  by_cases he : (lookupGroup st.binaryFindings host).isEmpty = true
  · simp [he] at heq
  · simp only [he, Bool.false_eq_true, if_false, Option.some.injEq] at heq
    subst heq
    constructor
    · have hperm := List.perm_insertionSort
        (fun a b : String => a ≤ b) (st.binaryFindings.map Prod.fst)
      exact hperm.subset hhost
    · rfl

/-- C3: after any sequence of `WriteBinaryOutput` calls, the
`binary_found.txt` artifact has its group headers in strictly ascending
lexicographic order of the `scheme://host` key, no URL occurs twice in
the whole file, and every URL sits in exactly the group its own parse
derives. -/
theorem binaryFindings_sorted_nodup
    (parseURL : String → Option (String × String))
    (lines : List String) :
    ((renderedGroups (runBinaryWrites parseURL lines)).map
        Prod.fst).Pairwise (· < ·) ∧
    (renderedUrls (runBinaryWrites parseURL lines)).Nodup ∧
    (∀ g ∈ renderedGroups (runBinaryWrites parseURL lines),
      ∀ u ∈ g.2, keyOf parseURL u = some g.1) := by
  set st := runBinaryWrites parseURL lines with hst
  obtain ⟨hnd, hent⟩ := writerInv_run parseURL lines
  have hkeys_sorted :
      (sortedHosts st).Pairwise (fun a b : String => a < b) := by
    have h1 : (sortedHosts st).Pairwise (fun a b : String => a ≤ b) :=
      List.sorted_insertionSort _ _
    have h2 : (sortedHosts st).Nodup :=
      (List.perm_insertionSort (fun a b : String => a ≤ b)
        (st.binaryFindings.map Prod.fst)).nodup_iff.mpr hnd
    exact List.Sorted.lt_of_le h1 h2
  have hrend : ((renderedGroups st).map Prod.fst).Pairwise
      (fun a b : String => a < b) := by
    rw [map_fst_renderedGroups]
    exact List.Pairwise.sublist (List.filter_sublist _) hkeys_sorted
  have hkeycons : ∀ g ∈ renderedGroups st, ∀ u ∈ g.2,
      keyOf parseURL u = some g.1 := by
    intro g hg u hu
    obtain ⟨hk, hurls⟩ := mem_renderedGroups st g hg
    rw [hurls] at hu
    obtain ⟨f, hf, rfl⟩ := List.mem_map.mp hu
    exact (hent _ (lookupGroup_mem _ _ hk)).2.2 f hf
  refine ⟨hrend, ?_, hkeycons⟩
  unfold renderedUrls
  rw [List.nodup_flatten]
  constructor
  · intro us hus
    obtain ⟨g, hg, rfl⟩ := List.mem_map.mp hus
    obtain ⟨hk, hurls⟩ := mem_renderedGroups st g hg
    rw [hurls]
    exact (hent _ (lookupGroup_mem _ _ hk)).2.1
  · rw [List.pairwise_map]
    have hpair : (renderedGroups st).Pairwise
        (fun g1 g2 => g1.1 < g2.1) := by
      have := hrend
      rw [List.pairwise_map] at this
      exact this
    refine List.Pairwise.imp_of_mem ?_ hpair
    intro g1 g2 hg1 hg2 hlt u hu1 hu2
    have e1 := hkeycons g1 hg1 u hu1
    have e2 := hkeycons g2 hg2 u hu2
    rw [e1] at e2
    exact absurd (Option.some.injEq _ _ ▸ e2) (ne_of_lt hlt)

end Censei.Output

namespace Censei.Blocklist

/-- The head surviving `dropWhile isSpace` is not whitespace. -/
theorem dropWhile_head_not_space (l : List Char) (c : Char)
    (rest : List Char) (h : l.dropWhile isSpace = c :: rest) :
    isSpace c = false := by
  induction l with
  | nil => simp at h
  | cons a t ih =>
    by_cases ha : isSpace a = true
    · rw [List.dropWhile_cons_of_pos ha] at h
      exact ih h
    · rw [List.dropWhile_cons_of_neg ha] at h
      cases h
      simpa using ha

/-- Every list is its trailing-space-trimmed part followed by the
trailing space run. -/
theorem eq_dropEndSpaces_append (X : List Char) :
    X = dropEndSpaces X ++ (X.reverse.takeWhile isSpace).reverse := by
  unfold dropEndSpaces
  calc X = X.reverse.reverse := (List.reverse_reverse X).symm
    _ = (X.reverse.takeWhile isSpace ++
          X.reverse.dropWhile isSpace).reverse := by
        rw [List.takeWhile_append_dropWhile]
    _ = (X.reverse.dropWhile isSpace).reverse ++
          (X.reverse.takeWhile isSpace).reverse := by
        rw [List.reverse_append]

/-- End-trimming yields the empty list only for all-whitespace input. -/
theorem dropEndSpaces_eq_nil_iff (X : List Char) :
    dropEndSpaces X = [] ↔ ∀ c ∈ X, isSpace c = true := by
  unfold dropEndSpaces
  rw [List.reverse_eq_nil_iff, List.dropWhile_eq_nil_iff]
  constructor
  · intro h c hc
    exact h c (List.mem_reverse.mpr hc)
  · intro h c hc
    exact h c (List.mem_reverse.mp hc)

/-- End-trimming passes over an all-nonspace front segment. -/
theorem dropEndSpaces_append_nonspace (h rest : List Char)
    (hh : ∀ c ∈ h, isSpace c = false) :
    dropEndSpaces (h ++ rest) = h ++ dropEndSpaces rest := by
  unfold dropEndSpaces
  rw [List.reverse_append, List.dropWhile_append]
  by_cases he : (rest.reverse.dropWhile isSpace).isEmpty = true
  · rw [if_pos he]
    have hr : rest.reverse.dropWhile isSpace = [] := by simpa using he
    rw [hr]
    have hd : h.reverse.dropWhile isSpace = h.reverse := by
      cases hr2 : h.reverse with
      | nil => simp
      | cons c t =>
        have hc : c ∈ h := List.mem_reverse.mp (hr2 ▸ List.mem_cons_self c t)
        rw [List.dropWhile_cons_of_neg (by simp [hh c hc])]
    rw [hd, List.reverse_reverse]
    simp
  · rw [if_neg he, List.reverse_append, List.reverse_reverse]

/-- End-trimming a cons: all gone, or the head survives. -/
theorem dropEndSpaces_cons (a : Char) (l : List Char) :
    dropEndSpaces (a :: l) = [] ∨
      dropEndSpaces (a :: l) = a :: dropEndSpaces l := by
  unfold dropEndSpaces
  rw [List.reverse_cons, List.dropWhile_append]
  by_cases he : (l.reverse.dropWhile isSpace).isEmpty = true
  · rw [if_pos he]
    have hr : l.reverse.dropWhile isSpace = [] := by simpa using he
    rw [hr]
    by_cases ha : isSpace a = true
    · left
      simp [List.dropWhile_cons, ha]
    · right
      simp [List.dropWhile_cons, ha]
  · rw [if_neg he, List.reverse_append]
    right
    rfl

/-- The head of a trimmed line is not whitespace. -/
theorem trimChars_head_not_space (l : List Char) (c : Char)
    (rest : List Char) (h2 : trimChars l = c :: rest) :
    isSpace c = false := by
  unfold trimChars at h2
  have hd := eq_dropEndSpaces_append (l.dropWhile isSpace)
  rw [h2] at hd
  exact dropWhile_head_not_space l c _ (by rw [hd, List.cons_append])

/-- Trimming a line that starts with a non-space character only trims
the end. -/
theorem trimChars_cons_nonspace (c : Char) (l : List Char)
    (hc : isSpace c = false) :
    trimChars (c :: l) = dropEndSpaces (c :: l) := by
  unfold trimChars
  rw [List.dropWhile_cons_of_neg (by simp [hc])]

end Censei.Blocklist

namespace Censei.Blocklist

/-- `Fields` skips a leading whitespace character. -/
theorem fieldsOf_cons_space (c : Char) (l : List Char)
    (hc : isSpace c = true) : fieldsOf (c :: l) = fieldsOf l := by
  show fieldsAux (c :: l) [] = fieldsOf l
  conv_lhs => unfold fieldsAux
  rw [if_pos hc]
  rfl

/-- The accumulator pass with a nonempty current chunk: the chunk closes
with the next maximal nonspace run, and scanning resumes after it. -/
theorem fieldsAux_cur_ne_nil (l : List Char) :
    ∀ cur : List Char, cur ≠ [] →
      fieldsAux l cur =
        (cur.reverse ++ l.takeWhile (fun c => !(isSpace c))) ::
          fieldsOf (l.dropWhile (fun c => !(isSpace c))) := by
  induction l with
  | nil =>
    intro cur hc
    unfold fieldsAux
    rw [if_neg (by simpa using hc)]
    simp [fieldsOf, fieldsAux]
  | cons a t ih =>
    intro cur hc
    by_cases ha : isSpace a = true
    · unfold fieldsAux
      rw [if_pos ha, if_neg (by simpa using hc)]
      rw [List.takeWhile_cons_of_neg (by simp [ha]),
        List.dropWhile_cons_of_neg (by simp [ha])]
      rw [fieldsOf_cons_space a t ha]
      simp [fieldsOf]
    · unfold fieldsAux
      rw [if_neg ha]
      rw [List.takeWhile_cons_of_pos (by simp [ha]),
        List.dropWhile_cons_of_pos (by simp [ha])]
      rw [ih (a :: cur) (by simp)]
      simp

/-- `Fields` of a line starting with a non-space character: the first
field is the leading maximal nonspace run. -/
theorem fieldsOf_cons_nonspace (c : Char) (l : List Char)
    (hc : isSpace c = false) :
    fieldsOf (c :: l) =
      (c :: l.takeWhile (fun x => !(isSpace x))) ::
        fieldsOf (l.dropWhile (fun x => !(isSpace x))) := by
  show fieldsAux (c :: l) [] = _
  conv_lhs => unfold fieldsAux
  rw [if_neg (by simp [hc])]
  rw [fieldsAux_cur_ne_nil l [c] (by simp)]
  simp

/-- `Fields` of a nonempty all-nonspace segment followed by anything:
the segment extends to the first field. -/
theorem fieldsOf_append_nonspace (h rest : List Char) (hne : h ≠ [])
    (hh : ∀ c ∈ h, isSpace c = false) :
    fieldsOf (h ++ rest) =
      (h ++ rest.takeWhile (fun c => !(isSpace c))) ::
        fieldsOf (rest.dropWhile (fun c => !(isSpace c))) := by
  cases h with
  | nil => exact absurd rfl hne
  | cons c h' =>
    have hcs : isSpace c = false := hh c (List.mem_cons_self c h')
    have hh' : ∀ x ∈ h', isSpace x = false :=
      fun x hx => hh x (List.mem_cons_of_mem c hx)
    have htw : h'.takeWhile (fun x => !(isSpace x)) = h' :=
      List.takeWhile_eq_self_iff.mpr (fun x hx => by simp [hh' x hx])
    have hdw : (h'.dropWhile (fun x => !(isSpace x))).isEmpty = true := by
      rw [List.isEmpty_iff, List.dropWhile_eq_nil_iff]
      exact fun x hx => by simp [hh' x hx]
    rw [List.cons_append, fieldsOf_cons_nonspace c (h' ++ rest) hcs]
    rw [List.takeWhile_append, List.dropWhile_append]
    rw [if_pos (by rw [htw]), if_pos hdw]
    simp

/-- Every field is nonempty and whitespace-free (accumulator form). -/
theorem fieldsAux_fields_good (l : List Char) :
    ∀ cur : List Char, (∀ c ∈ cur, isSpace c = false) →
      ∀ f ∈ fieldsAux l cur, f ≠ [] ∧ ∀ c ∈ f, isSpace c = false := by
  induction l with
  | nil =>
    intro cur hcur f hf
    unfold fieldsAux at hf
    by_cases hc : cur.isEmpty = true
    · rw [if_pos hc] at hf
      simp at hf
    · rw [if_neg hc] at hf
      simp only [List.mem_singleton] at hf
      subst hf
      refine ⟨by simpa using hc, ?_⟩
      intro c hc2
      exact hcur c (List.mem_reverse.mp hc2)
  | cons a t ih =>
    intro cur hcur f hf
    unfold fieldsAux at hf
    by_cases ha : isSpace a = true
    · rw [if_pos ha] at hf
      by_cases hc : cur.isEmpty = true
      · rw [if_pos hc] at hf
        exact ih [] (by simp) f hf
      · rw [if_neg hc] at hf
        rcases List.mem_cons.mp hf with rfl | hf2
        · refine ⟨by simpa using hc, ?_⟩
          intro c hc2
          exact hcur c (List.mem_reverse.mp hc2)
        · exact ih [] (by simp) f hf2
    · rw [if_neg ha] at hf
      refine ih (a :: cur) ?_ f hf
      intro c hc2
      rcases List.mem_cons.mp hc2 with rfl | hc3
      · simpa using ha
      · exact hcur c hc3

/-- Every field of a line is nonempty and whitespace-free. -/
theorem fieldsOf_good (l : List Char) (f : List Char)
    (hf : f ∈ fieldsOf l) : f ≠ [] ∧ ∀ c ∈ f, isSpace c = false :=
  fieldsAux_fields_good l [] (by simp) f hf

end Censei.Blocklist

namespace Censei.Blocklist

/-- Folding with per-element membership context preserves a predicate. -/
theorem foldl_preserve_mem {α : Type _} {σ : Type _} (f : σ → α → σ)
    (P : σ → Prop) (l0 : List α)
    (h : ∀ s a, a ∈ l0 → P s → P (f s a)) :
    ∀ l : List α, (∀ a ∈ l, a ∈ l0) → ∀ s, P s → P (l.foldl f s) := by
  intro l
  induction l with
  | nil => intro _ s hs; exact hs
  | cons a t ih =>
    intro hsub s hs
    exact ih (fun x hx => hsub x (List.mem_cons_of_mem a hx)) (f s a)
      (h s a (hsub a (List.mem_cons_self a t)) hs)

/-- Entries of a map after an insert: the inserted pair or an old one. -/
theorem mem_mapInsert (m : List (String × Nat)) (k : String) (v : Nat)
    (e : String × Nat) (he : e ∈ mapInsert m k v) :
    e = (k, v) ∨ e ∈ m := by
  induction m with
  | nil => simpa [mapInsert] using he
  | cons e0 rest ih =>
    obtain ⟨k0, v0⟩ := e0
    by_cases hk : k0 = k
    · subst hk
      unfold mapInsert at he
      rw [if_pos rfl] at he
      rcases List.mem_cons.mp he with rfl | hr
      · exact Or.inl rfl
      · exact Or.inr (List.mem_cons_of_mem _ hr)
    · unfold mapInsert at he
      rw [if_neg hk] at he
      rcases List.mem_cons.mp he with rfl | hr
      · exact Or.inr (List.mem_cons_self _ _)
      · rcases ih hr with h1 | h1
        · exact Or.inl h1
        · exact Or.inr (List.mem_cons_of_mem _ h1)

/-- Reading the inserted key. -/
theorem lookupTs_mapInsert_self (m : List (String × Nat)) (k : String)
    (v : Nat) : lookupTs (mapInsert m k v) k = some v := by
  induction m with
  | nil => simp [mapInsert, lookupTs]
  | cons e0 rest ih =>
    obtain ⟨k0, v0⟩ := e0
    by_cases hk : k0 = k
    · subst hk
      simp [mapInsert, lookupTs]
    · simp [mapInsert, lookupTs, hk, ih]

/-- Reading a different key after an insert. -/
theorem lookupTs_mapInsert_ne (m : List (String × Nat)) (k : String)
    (v : Nat) (h : String) (hne : h ≠ k) :
    lookupTs (mapInsert m k v) h = lookupTs m h := by
  induction m with
  | nil =>
    simp [mapInsert, lookupTs]
    intro he
    exact absurd he.symm hne
  | cons e0 rest ih =>
    obtain ⟨k0, v0⟩ := e0
    by_cases hk : k0 = k
    · subst hk
      have : ¬ k0 = h := fun he => hne he.symm
      simp [mapInsert, lookupTs, this]
    · by_cases hk0 : k0 = h
      · simp [mapInsert, lookupTs, hk, hk0, hne]
      · simp [mapInsert, lookupTs, hk, hk0, ih]

/-- One `Load` line, characterized: either the line is skipped and the
map is unchanged, or exactly one hostname (a well-formed one, visible in
`dataHostnames`) is inserted, with a timestamp that is the parse of the
second field when present and parseable, and the current time
otherwise. -/
theorem loadLine_cases (parseTs : List Char → Option Nat) (now : Nat)
    (m : List (String × Nat)) (raw : List Char) :
    (dataHostnames [raw] = [] ∧ loadLine parseTs now m raw = m) ∨
    (∃ hname ts, dataHostnames [raw] = [hname] ∧
      loadLine parseTs now m raw = mapInsert m hname ts ∧
      hname.toList ≠ [] ∧
      (∀ c ∈ hname.toList, isSpace c = false) ∧
      (∀ c r, hname.toList = c :: r → ¬ c = '#') ∧
      (ts = now ∨ ∃ tsF frest,
        fieldsOf (trimChars raw) = hname.toList :: tsF :: frest ∧
        parseTs tsF = some ts)) := by
  cases ht : trimChars raw with
  | nil =>
    left
    constructor
    · unfold dataHostnames
      simp [ht]
    · unfold loadLine
      simp [ht]
  | cons c lrest =>
    by_cases hc : c = '#'
    · left
      constructor
      · unfold dataHostnames
        simp [ht, hc]
      · unfold loadLine
        simp [ht, hc]
    · have hcs : isSpace c = false := trimChars_head_not_space raw c lrest ht
      cases hf : fieldsOf (c :: lrest) with
      | nil =>
        left
        constructor
        · unfold dataHostnames
          simp [ht, hc, hf]
        · unfold loadLine
          simp [ht, hc, hf]
      | cons hostname tsrest =>
        right
        have hgood := fieldsOf_good (c :: lrest) hostname
          (hf ▸ List.mem_cons_self hostname tsrest)
        have hhead : ∃ r, hostname = c :: r := by
          have hf2 := hf
          rw [fieldsOf_cons_nonspace c lrest hcs] at hf2
          exact ⟨_, ((List.cons.injEq _ _ _ _).mp hf2).1.symm⟩
        have hdn : dataHostnames [raw] = [String.mk hostname] := by
          unfold dataHostnames
          simp [ht, hc, hf]
        refine ⟨String.mk hostname, ?_⟩
        cases tsrest with
        | nil =>
          refine ⟨now, hdn, ?_, ?_, ?_, ?_, Or.inl rfl⟩
          · unfold loadLine
            simp [ht, hc, hf]
          · exact hgood.1
          · exact hgood.2
          · intro c2 r2 he2
            obtain ⟨r, hr⟩ := hhead
            rw [show (String.mk hostname).toList = hostname from rfl,
              hr] at he2
            cases he2
            exact hc
        | cons tsF frest =>
          cases hp : parseTs tsF with
          | none =>
            refine ⟨now, hdn, ?_, ?_, ?_, ?_, Or.inl rfl⟩
            · unfold loadLine
              simp [ht, hc, hf, hp]
            · exact hgood.1
            · exact hgood.2
            · intro c2 r2 he2
              obtain ⟨r, hr⟩ := hhead
              rw [show (String.mk hostname).toList = hostname from rfl,
                hr] at he2
              cases he2
              exact hc
          | some t =>
            refine ⟨t, hdn, ?_, ?_, ?_, ?_,
              Or.inr ⟨tsF, frest, by simp [ht, hf], hp⟩⟩

            · unfold loadLine
              simp [ht, hc, hf, hp]
            · exact hgood.1
            · exact hgood.2
            · intro c2 r2 he2
              obtain ⟨r, hr⟩ := hhead
              rw [show (String.mk hostname).toList = hostname from rfl,
                hr] at he2
              cases he2
              exact hc

end Censei.Blocklist

namespace Censei.Blocklist

/-- `Load` of a data line with a parseable timestamp field inserts
exactly that timestamp. -/
theorem loadLine_eq_of_parse (parseTs : List Char → Option Nat)
    (now : Nat) (m : List (String × Nat)) (raw : List Char) (c : Char)
    (lrest hl tsF : List Char) (frest : List (List Char)) (t0 : Nat)
    (ht : trimChars raw = c :: lrest) (hc : ¬ c = '#')
    (hf : fieldsOf (c :: lrest) = hl :: tsF :: frest)
    (hp : parseTs tsF = some t0) :
    loadLine parseTs now m raw = mapInsert m (String.mk hl) t0 := by
  unfold loadLine
  simp [ht, hc, hf, hp]

/-- `dataHostnames` distributes over cons via the singleton. -/
theorem dataHostnames_cons (x : List Char) (xs : List (List Char)) :
    dataHostnames (x :: xs) = dataHostnames [x] ++ dataHostnames xs := by
  unfold dataHostnames
  rw [show x :: xs = [x] ++ xs from rfl, List.filterMap_append]

/-- `dataHostnames` distributes over append. -/
theorem dataHostnames_append (xs ys : List (List Char)) :
    dataHostnames (xs ++ ys) = dataHostnames xs ++ dataHostnames ys := by
  unfold dataHostnames
  rw [List.filterMap_append]

/-- A comment line contributes no data hostname. -/
theorem dataHostnames_hash (tail : List Char) :
    dataHostnames [('#' :: tail)] = [] := by
  unfold dataHostnames
  simp only [List.filterMap_cons, List.filterMap_nil]
  have hns : isSpace '#' = false := by decide
  rw [trimChars_cons_nonspace _ _ hns]
  rcases dropEndSpaces_cons '#' tail with h | h
  · rw [h]
  · rw [h]
    simp

/-- A saved entry line contributes exactly its hostname. -/
theorem dataHostnames_entry (h : String) (X : List Char)
    (h1 : h.toList ≠ []) (h2 : ∀ c ∈ h.toList, isSpace c = false)
    (h3 : ∀ c r, h.toList = c :: r → ¬ c = '#') :
    dataHostnames [h.toList ++ ' ' :: X] = [h] := by
  obtain ⟨c, h', hch⟩ : ∃ c h', h.toList = c :: h' := by
    cases hlt : h.toList with
    | nil => exact absurd hlt h1
    | cons c h' => exact ⟨c, h', rfl⟩
  have hcs : isSpace c = false := h2 c (hch ▸ List.mem_cons_self c h')
  have hnc : ¬ c = '#' := h3 c h' hch
  have htrim : trimChars (h.toList ++ ' ' :: X) =
      h.toList ++ dropEndSpaces (' ' :: X) := by
    rw [hch, List.cons_append, trimChars_cons_nonspace _ _ hcs,
      ← List.cons_append, ← hch]
    exact dropEndSpaces_append_nonspace h.toList (' ' :: X) h2
  have hsp : isSpace ' ' = true := by decide
  rcases dropEndSpaces_cons ' ' X with hd | hd
  · have htrim2 : trimChars (h.toList ++ ' ' :: X) = c :: h' := by
      rw [htrim, hd, List.append_nil, hch]
    have hfo : fieldsOf (c :: h') = [h.toList] := by
      rw [← hch, show (h.toList : List Char) = h.toList ++ [] by simp,
        fieldsOf_append_nonspace h.toList [] h1 h2]
      simp [fieldsOf, fieldsAux]
    unfold dataHostnames
    simp only [List.filterMap_cons, List.filterMap_nil]
    rw [htrim2]
    simp [hnc, hfo, show String.mk h.toList = h from rfl]
  · have htrim2 : trimChars (h.toList ++ ' ' :: X) =
        c :: (h' ++ ' ' :: dropEndSpaces X) := by
      rw [htrim, hd, hch, List.cons_append]
    have hfo : fieldsOf (c :: (h' ++ ' ' :: dropEndSpaces X)) =
        (h.toList ++ []) :: fieldsOf
          ((' ' :: dropEndSpaces X).dropWhile (fun x => !(isSpace x))) := by
      rw [← List.cons_append, ← hch,
        fieldsOf_append_nonspace h.toList (' ' :: dropEndSpaces X) h1 h2]
      rw [List.takeWhile_cons_of_neg (by simp [hsp])]
    unfold dataHostnames
    simp only [List.filterMap_cons, List.filterMap_nil]
    rw [htrim2]
    simp [hnc, hfo, show String.mk h.toList = h from rfl]

end Censei.Blocklist

namespace Censei.Blocklist

/-- Every hostname loaded from a blocklist file is nonempty,
whitespace-free and does not start with `#`. -/
theorem load_keys_good (parseTs : List Char → Option Nat) (now : Nat)
    (lines : List (List Char)) :
    ∀ e ∈ Load parseTs now lines,
      e.1.toList ≠ [] ∧ (∀ c ∈ e.1.toList, isSpace c = false) ∧
      (∀ c r, e.1.toList = c :: r → ¬ c = '#') := by
  refine Censei.Scanners.foldl_preserve (loadLine parseTs now)
    (fun m => ∀ e ∈ m, e.1.toList ≠ [] ∧
      (∀ c ∈ e.1.toList, isSpace c = false) ∧
      (∀ c r, e.1.toList = c :: r → ¬ c = '#')) ?_ lines [] (by simp)
  intro m raw hm
  rcases loadLine_cases parseTs now m raw with ⟨_, he⟩ |
    ⟨hname, ts, _, he, hn1, hn2, hn3, _⟩
  · rw [he]; exact hm
  · rw [he]
    intro e hein
    rcases mem_mapInsert m hname ts e hein with rfl | hold
    · exact ⟨hn1, hn2, hn3⟩
    · exact hm e hold

/-- Every loaded timestamp is the current time, or the parse of the
timestamp field of some input line carrying the same hostname. -/
theorem load_origin (parseTs : List Char → Option Nat) (now : Nat)
    (lines : List (List Char)) :
    ∀ e ∈ Load parseTs now lines,
      e.2 = now ∨ ∃ raw ∈ lines, ∃ tsF frest,
        fieldsOf (trimChars raw) = e.1.toList :: tsF :: frest ∧
        parseTs tsF = some e.2 := by
  refine foldl_preserve_mem (loadLine parseTs now)
    (fun m => ∀ e ∈ m, e.2 = now ∨ ∃ raw ∈ lines, ∃ tsF frest,
      fieldsOf (trimChars raw) = e.1.toList :: tsF :: frest ∧
      parseTs tsF = some e.2) lines ?_ lines (fun a ha => ha) [] (by simp)
  intro m raw hraw hm
  rcases loadLine_cases parseTs now m raw with ⟨_, he⟩ |
    ⟨hname, ts, _, he, _, _, _, horig⟩
  · rw [he]; exact hm
  · rw [he]
    intro e hein
    rcases mem_mapInsert m hname ts e hein with rfl | hold
    · rcases horig with rfl | ⟨tsF, frest, hfo, hp⟩
      · exact Or.inl rfl
      · exact Or.inr ⟨raw, hraw, tsF, frest, hfo, hp⟩
    · exact hm e hold

/-- Loading lines that never mention a hostname leaves its binding
alone. -/
theorem load_lookup_unchanged (parseTs : List Char → Option Nat)
    (now : Nat) :
    ∀ (ls : List (List Char)) (acc : List (String × Nat)) (h : String),
      h ∉ dataHostnames ls →
      lookupTs (ls.foldl (loadLine parseTs now) acc) h =
        lookupTs acc h := by
  intro ls
  induction ls with
  | nil => intro acc h _; rfl
  | cons raw ls2 ih =>
    intro acc h hnm
    rw [dataHostnames_cons] at hnm
    simp only [List.mem_append, not_or] at hnm
    rw [List.foldl_cons]
    rcases loadLine_cases parseTs now acc raw with ⟨_, he⟩ |
      ⟨hname, ts, hdn, he, _, _, _, _⟩
    · rw [he]
      exact ih acc h hnm.2
    · rw [he, ih _ h hnm.2]
      refine lookupTs_mapInsert_ne acc hname ts h ?_
      intro hcon
      apply hnm.1
      rw [hdn, hcon]
      exact List.mem_singleton.mpr rfl

/-- With duplicate-free data hostnames, the binding loaded for a data
line with a parseable timestamp field is exactly that timestamp. -/
theorem load_parse_binding (parseTs : List Char → Option Nat) (now : Nat) :
    ∀ (lines : List (List Char)) (acc : List (String × Nat)),
      (dataHostnames lines).Nodup →
      ∀ raw ∈ lines, ∀ (c : Char) (lrest hl tsF : List Char)
        (frest : List (List Char)) (t0 : Nat),
        trimChars raw = c :: lrest → ¬ c = '#' →
        fieldsOf (c :: lrest) = hl :: tsF :: frest →
        parseTs tsF = some t0 →
        lookupTs (lines.foldl (loadLine parseTs now) acc)
          (String.mk hl) = some t0 := by
  intro lines
  induction lines with
  | nil => intro acc _ raw hraw; simp at hraw
  | cons L ls ih =>
    intro acc hnd raw hraw c lrest hl tsF frest t0 ht hc hf hp
    rw [dataHostnames_cons] at hnd
    rcases List.mem_cons.mp hraw with rfl | hraw2
    · have hdnL : dataHostnames [raw] = [String.mk hl] := by
        unfold dataHostnames
        simp [ht, hc, hf]
      rw [hdnL] at hnd
      have hnotin : String.mk hl ∉ dataHostnames ls := by
        have := hnd
        rw [List.singleton_append, List.nodup_cons] at this
        exact this.1
      rw [List.foldl_cons,
        loadLine_eq_of_parse parseTs now acc raw c lrest hl tsF frest
          t0 ht hc hf hp,
        load_lookup_unchanged parseTs now ls _ _ hnotin]
      exact lookupTs_mapInsert_self acc (String.mk hl) t0
    · rw [List.foldl_cons]
      exact ih (loadLine parseTs now acc L) (hnd.of_append_right) raw
        hraw2 c lrest hl tsF frest t0 ht hc hf hp

/-- A comment line at the head contributes nothing to the data
hostnames of the remaining lines. -/
theorem dataHostnames_cons_hash (tail : List Char)
    (rest : List (List Char)) :
    dataHostnames (('#' :: tail) :: rest) = dataHostnames rest := by
  rw [dataHostnames_cons, dataHostnames_hash, List.nil_append]

/-- A blank line at the head contributes nothing to the data hostnames
of the remaining lines. -/
theorem dataHostnames_cons_nil (rest : List (List Char)) :
    dataHostnames ([] :: rest) = dataHostnames rest := by
  rw [dataHostnames_cons]
  rfl

/-- Rendering a map of good hostnames as blocklist data lines yields
exactly the keys as data hostnames, in order. -/
theorem dataHostnames_entries (fmtTs : Nat → List Char) :
    ∀ (m : List (String × Nat)),
      (∀ e ∈ m, e.1.toList ≠ [] ∧
        (∀ c ∈ e.1.toList, isSpace c = false) ∧
        (∀ c r, e.1.toList = c :: r → ¬ c = '#')) →
      dataHostnames (m.map (fun e => e.1.toList ++ ' ' :: fmtTs e.2)) =
        m.map Prod.fst := by
  intro m
  induction m with
  | nil => intro _; rfl
  | cons e m2 ih =>
    intro hg
    obtain ⟨h, t⟩ := e
    have hge := hg (h, t) (List.mem_cons_self _ _)
    rw [List.map_cons, List.map_cons, dataHostnames_cons,
      dataHostnames_entry h (fmtTs t) hge.1 hge.2.1 hge.2.2,
      ih (fun e he => hg e (List.mem_cons_of_mem _ he))]
    rfl

/-- The data-line hostnames of a saved blocklist are exactly the map's
keys, in order. -/
theorem dataHostnames_save (fmtTs : Nat → List Char) (now2 : Nat)
    (m : List (String × Nat))
    (hg : ∀ e ∈ m, e.1.toList ≠ [] ∧
      (∀ c ∈ e.1.toList, isSpace c = false) ∧
      (∀ c r, e.1.toList = c :: r → ¬ c = '#')) :
    dataHostnames (Save fmtTs now2 m) = m.map Prod.fst := by
  unfold Save
  rw [dataHostnames_append]
  have hhead : dataHostnames (saveHeader fmtTs now2) = [] := by
    unfold saveHeader
    rw [show "# Censei Blocklist - Generated on ".toList ++ fmtTs now2 =
        '#' :: (" Censei Blocklist - Generated on ".toList ++ fmtTs now2)
        from rfl,
      dataHostnames_cons_hash,
      show "# Format: hostname timestamp".toList =
        '#' :: " Format: hostname timestamp".toList from rfl,
      dataHostnames_cons_hash,
      show "# Hosts that exceeded skip limits and are permanently blocked".toList =
        '#' :: " Hosts that exceeded skip limits and are permanently blocked".toList
        from rfl,
      dataHostnames_cons_hash, dataHostnames_cons_nil]
    rfl
  rw [hhead, List.nil_append, dataHostnames_entries fmtTs m hg]

end Censei.Blocklist

namespace Censei.Blocklist

/-- Inserting a fresh key appends it to the key list. -/
theorem mapInsert_map_fst_notmem (m : List (String × Nat)) (k : String)
    (v : Nat) (hk : k ∉ m.map Prod.fst) :
    (mapInsert m k v).map Prod.fst = m.map Prod.fst ++ [k] := by
  induction m with
  | nil => rfl
  | cons e rest ih =>
    obtain ⟨k0, v0⟩ := e
    have h1 : ¬ k0 = k := by
      intro h
      apply hk
      rw [List.map_cons, h]
      exact List.mem_cons_self _ _
    have h2 : k ∉ rest.map Prod.fst := by
      intro h
      apply hk
      rw [List.map_cons]
      exact List.mem_cons_of_mem _ h
    simp only [mapInsert]
    rw [if_neg h1, List.map_cons, List.map_cons, ih h2, List.cons_append]

/-- Scanning lines whose data hostnames are fresh and duplicate-free
appends exactly those hostnames to the accumulated key list. -/
theorem load_keys_aux (parseTs : List Char → Option Nat) (now : Nat) :
    ∀ (ls : List (List Char)) (acc : List (String × Nat)),
      (acc.map Prod.fst ++ dataHostnames ls).Nodup →
      (ls.foldl (loadLine parseTs now) acc).map Prod.fst =
        acc.map Prod.fst ++ dataHostnames ls := by
  intro ls
  induction ls with
  | nil =>
    intro acc _
    show List.map Prod.fst acc = List.map Prod.fst acc ++ dataHostnames []
    rw [show dataHostnames [] = [] from rfl, List.append_nil]
  | cons raw ls2 ih =>
    intro acc hnd
    rw [List.foldl_cons]
    rcases loadLine_cases parseTs now acc raw with ⟨hdn, he⟩ |
      ⟨hname, ts, hdn, he, _, _, _, _⟩
    · have hd2 : dataHostnames (raw :: ls2) = dataHostnames ls2 := by
        rw [dataHostnames_cons, hdn, List.nil_append]
      rw [hd2] at hnd
      rw [he, hd2]
      exact ih acc hnd
    · have hd2 : dataHostnames (raw :: ls2) =
          hname :: dataHostnames ls2 := by
        rw [dataHostnames_cons, hdn, List.singleton_append]
      rw [hd2] at hnd
      have hdisj := List.disjoint_of_nodup_append hnd
      have hknot : hname ∉ acc.map Prod.fst := fun hmem =>
        hdisj hmem (List.mem_cons_self _ _)
      have hni : ((mapInsert acc hname ts).map Prod.fst ++
          dataHostnames ls2).Nodup := by
        rw [mapInsert_map_fst_notmem acc hname ts hknot,
          List.append_assoc, List.singleton_append]
        exact hnd
      rw [he, hd2, ih (mapInsert acc hname ts) hni,
        mapInsert_map_fst_notmem acc hname ts hknot,
        List.append_assoc, List.singleton_append]

/-- With duplicate-free data hostnames, the loaded map's keys are
exactly the input file's data hostnames, in order. -/
theorem load_keys (parseTs : List Char → Option Nat) (now : Nat)
    (lines : List (List Char))
    (hN : (dataHostnames lines).Nodup) :
    (Load parseTs now lines).map Prod.fst = dataHostnames lines := by
  have h := load_keys_aux parseTs now lines [] (by simpa using hN)
  unfold Load
  simpa using h

end Censei.Blocklist

namespace Censei.Blocklist

/-- C7: load/save round trip of a blocklist file. For a well-formed
input file (its data-line hostnames, after trimming, skipping blanks
and `#` comments and taking the first whitespace field, are
duplicate-free): (a) saving the loaded map produces a file whose
data-line hostnames are exactly the input file's data hostnames; (b)
every loaded binding `(h, t)` is written to the saved file as the data
line `h ++ " " ++ fmtTs t`, so each hostname keeps its loaded
timestamp; (c) each loaded timestamp is either the current load time
`now` (timestamp field absent or unparseable) or the parsed value of
the timestamp field of an input line carrying that hostname; (d) a
data line whose timestamp field parses as `t0` loads its hostname with
timestamp exactly `t0`. -/
theorem load_save_roundtrip
    (parseTs : List Char → Option Nat) (fmtTs : Nat → List Char)
    (now now2 : Nat) (lines : List (List Char))
    (hN : (dataHostnames lines).Nodup) :
    dataHostnames (Save fmtTs now2 (Load parseTs now lines)) =
      dataHostnames lines ∧
    (∀ e ∈ Load parseTs now lines,
      e.1.toList ++ ' ' :: fmtTs e.2 ∈
        Save fmtTs now2 (Load parseTs now lines)) ∧
    (∀ e ∈ Load parseTs now lines,
      e.2 = now ∨ ∃ raw ∈ lines, ∃ tsF frest,
        fieldsOf (trimChars raw) = e.1.toList :: tsF :: frest ∧
        parseTs tsF = some e.2) ∧
    (∀ raw ∈ lines, ∀ (c : Char) (lrest hl tsF : List Char)
      (frest : List (List Char)) (t0 : Nat),
      trimChars raw = c :: lrest → ¬ c = '#' →
      fieldsOf (c :: lrest) = hl :: tsF :: frest →
      parseTs tsF = some t0 →
      lookupTs (Load parseTs now lines) (String.mk hl) = some t0) := by
  refine ⟨?_, ?_, load_origin parseTs now lines, ?_⟩
  · rw [dataHostnames_save fmtTs now2 _ (load_keys_good parseTs now lines),
      load_keys parseTs now lines hN]
  · intro e he
    unfold Save
    exact List.mem_append_right _ (List.mem_map.mpr ⟨e, he, rfl⟩)
  · intro raw hraw c lrest hl tsF frest t0 ht hc hf hp
    exact load_parse_binding parseTs now lines [] hN raw hraw c lrest hl
      tsF frest t0 ht hc hf hp

/-- Concrete instance of the load/save round trip: the one-line file
`"h 3"` with a parser accepting `"3"` as timestamp `3` round-trips with
hostname `"h"` preserved and bound to `3`. -/
theorem load_save_roundtrip_witness :
    (dataHostnames ["h 3".toList]).Nodup ∧
    (dataHostnames
        (Save (fun t => (Nat.toDigits 10 t).map id) 7
          (Load (fun l => if l = ['3'] then some 3 else none) 5
            ["h 3".toList])) =
      dataHostnames ["h 3".toList] ∧
    lookupTs
        (Load (fun l => if l = ['3'] then some 3 else none) 5
          ["h 3".toList]) (String.mk ['h']) = some 3) := by
  have hN : (dataHostnames ["h 3".toList]).Nodup := by decide
  have h := load_save_roundtrip
    (fun l => if l = ['3'] then some 3 else none)
    (fun t => (Nat.toDigits 10 t).map id) 5 7 ["h 3".toList] hN
  refine ⟨hN, h.1, ?_⟩
  exact h.2.2.2 "h 3".toList (by decide) 'h' [' ', '3'] ['h'] ['3'] [] 3
    (by decide) (by decide) (by decide) (by decide)

end Censei.Blocklist
